import Mathlib

set_option maxRecDepth 4000

/-!
Verification of the version-bumping engine of the bleump repository.

The embedding below follows the two generations of the engine found in the
sources: the legacy full-feature module (types `BumpMode`, `FileType`, the
regexes in `versionPatterns`, `calculateNewVersion`, `detectFileType`,
`extractVersion`, `updateVersionInContent`, `analyzeFiles`, `bumpVersion`,
`getLatestVersion`, `compareVersions`) and the current `impl.ts` module
(`bumpHandler`, `autoIncrementVersion`, its own `updateVersionInContent`
that performs the write itself, and `bumpVersions` with its filter-to-glob
translation).

File contents and paths are embedded as `List Char`.  The JavaScript regular
expressions used by the engine are embedded as deterministic matchers
(each regex here is free of backtracking: every greedy class is followed by
a character that the class excludes), together with the leftmost-match
search and first-match replacement semantics of `String.prototype.replace`
without the global flag.  The `\s` class is modelled by its ASCII members.

The external `semver` package is out of scope of the repository; following
the spec it is modelled on release versions `MAJOR.MINOR.PATCH` (see the
definitions marked "Modelled from the spec").  Filesystem effects are
modelled by an explicit store `SimFS` with per-path read and write failure.
-/

namespace Bleump

/-- Character-list form of a string literal. -/
def lc (s : String) : List Char := s.data

/-- The single-quote character (written numerically to keep source plain). -/
def sqc : Char := Char.ofNat 39

/-- ASCII members of the JavaScript regex class backslash-s. -/
def isWsChar (c : Char) : Bool :=
  c == ' ' || c == '\t' || c == '\n' || c == '\r' || c == Char.ofNat 11 || c == Char.ofNat 12

/-- Class of all characters other than a double quote. -/
def notDq (c : Char) : Bool := c != '"'

/-- Class of all characters other than a double or single quote. -/
def notQ (c : Char) : Bool := c != '"' && c != sqc

/-- Either quote character. -/
def isQuoteChar (c : Char) : Bool := c == '"' || c == sqc

/-- Substring test, as in JavaScript String.prototype.includes. -/
def containsSub (needle : List Char) : List Char → Bool
  | [] => needle.isPrefixOf []
  | c :: t => needle.isPrefixOf (c :: t) || containsSub needle t

/-- Leftmost-match search of a matcher over a string: the scan of a JS regex
exec.  The matcher returns the match length and the captured group when it
matches at the head of its argument. -/
def firstMatchFrom (m : List Char → Option (Nat × List Char)) :
    List Char → Option (Nat × Nat × List Char)
  | [] => (m []).map (fun r => (0, r))
  | c :: t =>
    match m (c :: t) with
    | some r => some (0, r)
    | none => (firstMatchFrom m t).map (fun x => (x.1 + 1, x.2))

/-- First-match replacement: JS String.prototype.replace with a non-global
regex.  The replacement callback receives the matched text and the capture. -/
def replaceFirst (m : List Char → Option (Nat × List Char))
    (repl : List Char → List Char → List Char) (s : List Char) : List Char :=
  match firstMatchFrom m s with
  | none => s
  | some (i, len, cap) => s.take i ++ repl ((s.drop i).take len) cap ++ s.drop (i + len)

/-- Repeated (global-flag) replacement, used by the modelled external pattern
catalog; the fuel argument is the input length, enough because every step
consumes at least one character. -/
def replaceAllAux (m : List Char → Option (Nat × List Char))
    (repl : List Char → List Char → List Char) : Nat → List Char → List Char
  | 0, s => s
  | Nat.succ fuel, s =>
    match m s with
    | some (len, cap) =>
      if len == 0 then
        match s with
        | [] => []
        | c :: t => c :: replaceAllAux m repl fuel t
      else repl (s.take len) cap ++ replaceAllAux m repl fuel (s.drop len)
    | none =>
      match s with
      | [] => []
      | c :: t => c :: replaceAllAux m repl fuel t

def replaceAll (m : List Char → Option (Nat × List Char))
    (repl : List Char → List Char → List Char) (s : List Char) : List Char :=
  replaceAllAux m repl s.length s

/-! The legacy regex `versionPatterns.packageJson`, namely
`"version"\s*:\s*"([^"]+)"`, decomposed into its sequential stages. -/

/-- Stage `([^"]+)"`: greedy capture of non-quote characters, then the
closing double quote.  Returns the length consumed from this stage on. -/
def pkjCap (s : List Char) : Option (Nat × List Char) :=
  let cap := s.takeWhile notDq
  if cap.isEmpty then none
  else
    match s.dropWhile notDq with
    | c :: _ => if c = '"' then some (cap.length + 1, cap) else none
    | [] => none

/-- Stage `\s*"` followed by the capture stage. -/
def pkjQuote (s : List Char) : Option (Nat × List Char) :=
  match s.dropWhile isWsChar with
  | c :: t =>
    if c = '"' then
      (pkjCap t).map (fun r => ((s.takeWhile isWsChar).length + 1 + r.1, r.2))
    else none
  | [] => none

/-- Stage `\s*:` followed by the quote stage. -/
def pkjColon (s : List Char) : Option (Nat × List Char) :=
  match s.dropWhile isWsChar with
  | c :: t =>
    if c = ':' then
      (pkjQuote t).map (fun r => ((s.takeWhile isWsChar).length + 1 + r.1, r.2))
    else none
  | [] => none

/-- The regex `"version"\s*:\s*"([^"]+)"` applied at the head of the input. -/
def matchPkjAt (s : List Char) : Option (Nat × List Char) :=
  if (lc "\"version\"").isPrefixOf s then
    (pkjColon (s.drop 9)).map (fun r => (9 + r.1, r.2))
  else none

/-! The legacy regex `versionPatterns.typescript`, namely
`version\s*[=:]\s*["']([^"']+)["']|version\s*:\s*["']([^"']+)["']\s*,`
(single quotes written here in words), decomposed per alternative. -/

/-- Stage `([^"']+)["']` of the first alternative. -/
def tsCap (s : List Char) : Option (Nat × List Char) :=
  let cap := s.takeWhile notQ
  if cap.isEmpty then none
  else
    match s.dropWhile notQ with
    | c :: _ => if isQuoteChar c then some (cap.length + 1, cap) else none
    | [] => none

/-- Stage `\s*["']` followed by the capture stage. -/
def tsQuoteOpen (s : List Char) : Option (Nat × List Char) :=
  match s.dropWhile isWsChar with
  | c :: t =>
    if isQuoteChar c then
      (tsCap t).map (fun r => ((s.takeWhile isWsChar).length + 1 + r.1, r.2))
    else none
  | [] => none

/-- Stage `\s*[=:]` followed by the opening-quote stage. -/
def tsSep (s : List Char) : Option (Nat × List Char) :=
  match s.dropWhile isWsChar with
  | c :: t =>
    if c = '=' ∨ c = ':' then
      (tsQuoteOpen t).map (fun r => ((s.takeWhile isWsChar).length + 1 + r.1, r.2))
    else none
  | [] => none

/-- Alternative A, `version\s*[=:]\s*["']([^"']+)["']`, at the head. -/
def matchTsAAt (s : List Char) : Option (Nat × List Char) :=
  if (lc "version").isPrefixOf s then
    (tsSep (s.drop 7)).map (fun r => (7 + r.1, r.2))
  else none

/-- Stage `\s*,` closing the second alternative. -/
def tsTailComma (s : List Char) : Option Nat :=
  match s.dropWhile isWsChar with
  | c :: _ => if c = ',' then some ((s.takeWhile isWsChar).length + 1) else none
  | [] => none

/-- Stage `([^"']+)["']\s*,` of the second alternative. -/
def tsCapB (s : List Char) : Option (Nat × List Char) :=
  let cap := s.takeWhile notQ
  if cap.isEmpty then none
  else
    match s.dropWhile notQ with
    | c :: t =>
      if isQuoteChar c then
        (tsTailComma t).map (fun n => (cap.length + 1 + n, cap))
      else none
    | [] => none

/-- Stage `\s*["']` of the second alternative. -/
def tsQuoteOpenB (s : List Char) : Option (Nat × List Char) :=
  match s.dropWhile isWsChar with
  | c :: t =>
    if isQuoteChar c then
      (tsCapB t).map (fun r => ((s.takeWhile isWsChar).length + 1 + r.1, r.2))
    else none
  | [] => none

/-- Stage `\s*:` of the second alternative. -/
def tsColonB (s : List Char) : Option (Nat × List Char) :=
  match s.dropWhile isWsChar with
  | c :: t =>
    if c = ':' then
      (tsQuoteOpenB t).map (fun r => ((s.takeWhile isWsChar).length + 1 + r.1, r.2))
    else none
  | [] => none

/-- Alternative B, `version\s*:\s*["']([^"']+)["']\s*,`, at the head. -/
def matchTsBAt (s : List Char) : Option (Nat × List Char) :=
  if (lc "version").isPrefixOf s then
    (tsColonB (s.drop 7)).map (fun r => (7 + r.1, r.2))
  else none

/-- The full typescript regex at the head: JS alternation tries the first
alternative, then the second.  Whichever alternative matches, the extracted
group (group 1 of A or group 2 of B) is the quoted version text, which is
what both branches of this definition return as the capture. -/
def matchTsAt (s : List Char) : Option (Nat × List Char) :=
  match matchTsAAt s with
  | some r => some r
  | none => matchTsBAt s

/-- File types recognised by the legacy engine. -/
inductive FileType where
  | packageJson
  | typescript
  | unknown
deriving DecidableEq

/-- Legacy `detectFileType`: package.json by path suffix; typescript when the
path ends in .ts or .js and the typescript version regex tests true. -/
def detectFileType (path content : List Char) : FileType :=
  if (lc "package.json").isSuffixOf path then .packageJson
  else if ((lc ".ts").isSuffixOf path || (lc ".js").isSuffixOf path)
      && (firstMatchFrom matchTsAt content).isSome then .typescript
  else .unknown

/-- Legacy `extractVersion`: first regex match, capture group. -/
def extractVersion (content : List Char) : FileType → Option (List Char)
  | .packageJson => (firstMatchFrom matchPkjAt content).map (fun x => x.2.2)
  | .typescript => (firstMatchFrom matchTsAt content).map (fun x => x.2.2)
  | .unknown => none

/-- Replacement text of the package.json rule. -/
def pkjRender (v : List Char) : List Char := lc "\"version\": \"" ++ v ++ ['"']

/-- Replacement callback of the typescript rule: the delimiter, the operator
and the trailing comma are recovered from the matched text. -/
def tsRender (matched v : List Char) : List Char :=
  let delim : Char := if matched.contains '"' then '"' else sqc
  let op : Char := if matched.contains '=' then '=' else ':'
  lc "version" ++ [op, ' ', delim] ++ v ++ [delim]
    ++ (if matched.contains ',' then [','] else [])

/-- Legacy `updateVersionInContent`; `none` models the throw on the unknown
file type. -/
def updateVersionInContent (content v : List Char) : FileType → Option (List Char)
  | .packageJson => some (replaceFirst matchPkjAt (fun _ _ => pkjRender v) content)
  | .typescript => some (replaceFirst matchTsAt (fun matched _ => tsRender matched v) content)
  | .unknown => none

/-! Semver model.  Modelled from the spec: the external semver package is
out of scope and is used as a black box for validate, parse, increment and
compare; versions are modelled as release versions MAJOR.MINOR.PATCH with
numeric components (prerelease and build parts are outside the model). -/

/-- Decimal digit character of a value below ten. -/
def digitChar : Nat → Char
  | 0 => '0' | 1 => '1' | 2 => '2' | 3 => '3' | 4 => '4'
  | 5 => '5' | 6 => '6' | 7 => '7' | 8 => '8' | _ => '9'

def charDigitVal (c : Char) : Nat := c.toNat - 48

/-- Decimal rendering with explicit fuel (the number itself suffices). -/
def renderNatAux : Nat → Nat → List Char
  | 0, n => [digitChar (n % 10)]
  | Nat.succ fuel, n =>
    if n < 10 then [digitChar n] else renderNatAux fuel (n / 10) ++ [digitChar (n % 10)]

def renderNat (n : Nat) : List Char := renderNatAux n n

def render3 (t : Nat × Nat × Nat) : List Char :=
  renderNat t.1 ++ '.' :: renderNat t.2.1 ++ '.' :: renderNat t.2.2

def parseNatVal (s : List Char) : Nat := s.foldl (fun n c => 10 * n + charDigitVal c) 0

/-- Numeric component: nonempty, digits only. -/
def parseNatDigits (s : List Char) : Option Nat :=
  if !s.isEmpty && s.all Char.isDigit then some (parseNatVal s) else none

/-- Splits on the dot character, in the manner of String.prototype.split. -/
def splitDot : List Char → List (List Char)
  | [] => [[]]
  | c :: t =>
    if c == '.' then [] :: splitDot t
    else
      match splitDot t with
      | h :: r => (c :: h) :: r
      | [] => [[c]]

/-- Modelled from the spec: parsing of a release version. -/
def parse3 (s : List Char) : Option (Nat × Nat × Nat) :=
  match splitDot s with
  | [a, b, c] =>
    match parseNatDigits a, parseNatDigits b, parseNatDigits c with
    | some x, some y, some z => some (x, y, z)
    | _, _, _ => none
  | _ => none

/-- Modelled from the spec: semver.valid as a boolean test. -/
def isValidSemver (s : List Char) : Bool := (parse3 s).isSome

/-- Bump modes of the legacy module. -/
inductive BumpMode where
  | patch | minor | major | auto | manual
deriving DecidableEq

/-- Component increment: major and minor reset the lower-order components;
patch (and auto, which the source maps to patch) raises the last one. -/
def incTriple : BumpMode → Nat × Nat × Nat → Nat × Nat × Nat
  | .major, (a, _, _) => (a + 1, 0, 0)
  | .minor, (a, b, _) => (a, b + 1, 0)
  | _, (a, b, c) => (a, b, c + 1)

/-- Modelled from the spec: semver.inc, returning none on an invalid input. -/
def semverInc (s : List Char) (mode : BumpMode) : Option (List Char) :=
  (parse3 s).map (fun t => render3 (incTriple mode t))

/-- Lexicographic comparison of version triples. -/
def cmpT (a b : Nat × Nat × Nat) : Ordering :=
  if a.1 < b.1 then .lt else if b.1 < a.1 then .gt
  else if a.2.1 < b.2.1 then .lt else if b.2.1 < a.2.1 then .gt
  else if a.2.2 < b.2.2 then .lt else if b.2.2 < a.2.2 then .gt else .eq

/-- Modelled from the spec: semver.compare; throws on an invalid argument. -/
def compareVersions (a b : List Char) : Except (List Char) Int :=
  match parse3 a, parse3 b with
  | some x, some y => .ok (match cmpT x y with | .lt => -1 | .eq => 0 | .gt => 1)
  | _, _ => .error (lc "Invalid Version")

/-- Modelled from the spec: semver.eq; throws on an invalid argument. -/
def semverEq (a b : List Char) : Except (List Char) Bool :=
  match parse3 a, parse3 b with
  | some x, some y => .ok (decide (x = y))
  | _, _ => .error (lc "Invalid Version")

/-- Error message of the manual mode when neither target is usable. -/
def missingTargetMsg : List Char :=
  lc "either bumpSet (in reliverse.ts) or --customVersion required when bumpType is manual"

/-- Manual-mode fallback on the caller-supplied custom version; JS truthiness
makes the undefined and the empty custom version equivalent. -/
def manualFromCustom : Option (List Char) → Except (List Char) (List Char)
  | none => .error missingTargetMsg
  | some cv =>
    if cv.isEmpty then .error missingTargetMsg
    else if isValidSemver cv then .ok cv
    else .error (lc "invalid custom version: " ++ cv)

/-- Legacy `calculateNewVersion`.  In manual mode a truthy bumpSet wins and
is validated; otherwise the custom version is consulted.  In the remaining
modes the increment is delegated to the semver model (auto maps to patch),
and a failed increment raises the failed-to-bump error. -/
def calculateNewVersion (current : List Char) (bumpType : BumpMode)
    (customVersion bumpSet : Option (List Char)) : Except (List Char) (List Char) :=
  match bumpType with
  | .manual =>
    match bumpSet with
    | some bs =>
      if bs.isEmpty then manualFromCustom customVersion
      else if isValidSemver bs then .ok bs
      else .error (lc "invalid bumpSet version: " ++ bs)
    | none => manualFromCustom customVersion
  | mode =>
    match semverInc current mode with
    | some v => .ok v
    | none => .error (lc "failed to bump version")

/-- Whether the later version is strictly greater, on parsed triples. -/
def laterIsGreater (m v : List Char) : Bool :=
  match parse3 m, parse3 v with
  | some x, some y => cmpT x y == Ordering.lt
  | _, _ => false

/-- Modelled from the spec: semver.maxSatisfying over the universal range,
on release versions: the greatest element of the list. -/
def maxSatisfyingStar (l : List (List Char)) : Option (List Char) :=
  l.foldl (fun acc v =>
    match acc with
    | none => some v
    | some m => if laterIsGreater m v then some v else some m) none

/-- Legacy `getLatestVersion`: filter the valid versions, null on none. -/
def getLatestVersion (versions : List (List Char)) : Option (List Char) :=
  let valid := versions.filter isValidSemver
  if valid.isEmpty then none else maxSatisfyingStar valid

/-! Filesystem model: an association store from paths to contents plus the
sets of paths whose read or write fails. -/

inductive ReadRes where
  | ok (content : List Char)
  | absent
  | failed
deriving DecidableEq

structure SimFS where
  files : List (List Char × List Char)
  unreadable : List (List Char)
  unwritable : List (List Char)
deriving DecidableEq

def lookupFile : List (List Char × List Char) → List Char → Option (List Char)
  | [], _ => none
  | e :: t, p => if e.1 == p then some e.2 else lookupFile t p

def readFs (fs : SimFS) (p : List Char) : ReadRes :=
  if fs.unreadable.contains p then .failed
  else
    match lookupFile fs.files p with
    | some c => .ok c
    | none => .absent

def setFile : List (List Char × List Char) → List Char → List Char → List (List Char × List Char)
  | [], p, c => [(p, c)]
  | e :: t, p, c => if e.1 == p then (p, c) :: t else e :: setFile t p c

def writeFs (fs : SimFS) (p c : List Char) : Option SimFS :=
  if fs.unwritable.contains p then none
  else some { files := setFile fs.files p c, unreadable := fs.unreadable,
              unwritable := fs.unwritable }

/-- Per-file result collected by the legacy batch. -/
structure UpdateResult where
  file : List Char
  success : Bool
  error : Option (List Char)
deriving DecidableEq

def joinFailures : List UpdateResult → List Char
  | [] => []
  | [r] => r.file ++ lc ": " ++ r.error.getD []
  | r :: t => r.file ++ lc ": " ++ r.error.getD [] ++ lc ", " ++ joinFailures t

/-- The single aggregate error raised by the legacy batch. -/
def aggregateMsg (failures : List UpdateResult) : List Char :=
  lc "failed to update version in files: " ++ joinFailures failures

/-- One iteration of the per-file loop of the legacy `bumpVersion`: any
failure of the iteration is caught and recorded; unknown file types and
files without a version are skipped without an entry; under dry run the
change is recorded without writing. -/
def bumpFileStep (v : List Char) (dryRun : Bool) (acc : SimFS × List UpdateResult)
    (file : List Char) : SimFS × List UpdateResult :=
  match readFs acc.1 file with
  | .absent => (acc.1, acc.2 ++ [⟨file, false, some (lc "read failed")⟩])
  | .failed => (acc.1, acc.2 ++ [⟨file, false, some (lc "read failed")⟩])
  | .ok content =>
    let ft := detectFileType file content
    if ft = .unknown then acc
    else
      match extractVersion content ft with
      | none => acc
      | some _ =>
        match updateVersionInContent content v ft with
        | none => (acc.1, acc.2 ++ [⟨file, false, some (lc "unsupported file type for version update")⟩])
        | some updated =>
          if dryRun then (acc.1, acc.2 ++ [⟨file, true, none⟩])
          else
            match writeFs acc.1 file updated with
            | none => (acc.1, acc.2 ++ [⟨file, false, some (lc "write failed")⟩])
            | some fs2 => (fs2, acc.2 ++ [⟨file, true, none⟩])

/-- Batch phase of the legacy `bumpVersion` (its per-file loop followed by
the failure check): returns the final store, the collected results, and the
aggregate outcome. -/
def bumpVersionBatch (v : List Char) (dryRun : Bool) (files : List (List Char))
    (fs : SimFS) : SimFS × List UpdateResult × Except (List Char) Unit :=
  let st := files.foldl (bumpFileStep v dryRun) (fs, [])
  let failures := st.2.filter (fun r => !r.success)
  if failures.isEmpty then (st.1, st.2, .ok ())
  else (st.1, st.2, .error (aggregateMsg failures))

/-- Result record of the legacy analyzer. -/
structure FileAnalysis where
  file : List Char
  supported : Bool
  detectedVersion : Option (List Char)
  versionMismatch : Bool
  reason : List Char
  fileType : FileType
deriving DecidableEq

/-- Legacy `analyzeFiles`, one file: the whole body runs in a try block, so
a read failure, and equally a throw of semver.eq on an unparsable version,
lands in the catch branch that reports a read error with the unknown type. -/
def analyzeOne (fs : SimFS) (referenceVersion : List Char) (file : List Char) : FileAnalysis :=
  match readFs fs file with
  | .absent => ⟨file, false, none, false, lc "read error: ENOENT", .unknown⟩
  | .failed => ⟨file, false, none, false, lc "read error: EACCES", .unknown⟩
  | .ok content =>
    let ft := detectFileType file content
    let dv := extractVersion content ft
    if ft = .unknown then ⟨file, false, dv, false, lc "unsupported file type", ft⟩
    else
      match dv with
      | none => ⟨file, false, none, false, lc "no version field found", ft⟩
      | some d =>
        match semverEq d referenceVersion with
        | .error e => ⟨file, false, none, false, lc "read error: " ++ e, .unknown⟩
        | .ok true => ⟨file, true, some d, false, lc "ok", ft⟩
        | .ok false => ⟨file, true, some d, true,
            lc "version mismatch: found " ++ d ++ lc ", expected " ++ referenceVersion, ft⟩

/-- Legacy `analyzeFiles`: the sequential loop appends exactly one record
per input file, in order. -/
def analyzeFiles (fs : SimFS) (files : List (List Char)) (referenceVersion : List Char) :
    List FileAnalysis :=
  files.map (analyzeOne fs referenceVersion)

/-! Embedding of the current impl module (`bumpHandler` / `bumpVersions`).
Its pattern catalog VERSION_PATTERNS comes from the external bleregex
package, so the catalog itself is modelled from the spec; the control flow
around it (the includes gate, the per-pattern loop, the write performed
inside `updateVersionInContent`, the per-file try/catch of the batch that
only logs) is translated from the source. -/

/-- Literal matcher (a regex with no classes). -/
def matchLiteralAt (lit : List Char) (s : List Char) : Option (Nat × List Char) :=
  if lit.isPrefixOf s then some (lit.length, []) else none

/-- Modelled from the spec: one ts-… rule of the external catalog — a
`version` identifier assignment using the given separator, either quoting,
with or without a trailing comma, at the exact old version. -/
def matchTsCatalogAt (sep : Char) (trailing : Bool) (old : List Char)
    (s : List Char) : Option (Nat × List Char) :=
  if (lc "version").isPrefixOf s then
    let s1 := s.drop 7
    match s1.dropWhile isWsChar with
    | c :: t =>
      if c == sep then
        match t.dropWhile isWsChar with
        | q :: u =>
          if isQuoteChar q && old.isPrefixOf u then
            match u.drop old.length with
            | q2 :: rest =>
              if isQuoteChar q2 then
                if trailing then
                  match rest.dropWhile isWsChar with
                  | ',' :: _ => some (7 + (s1.takeWhile isWsChar).length + 1
                      + (t.takeWhile isWsChar).length + 1 + old.length + 1
                      + (rest.takeWhile isWsChar).length + 1, [])
                  | _ => none
                else some (7 + (s1.takeWhile isWsChar).length + 1
                    + (t.takeWhile isWsChar).length + 1 + old.length + 1, [])
              else none
            | [] => none
          else none
        | [] => none
      else none
    | [] => none
  else none

/-- Modelled from the spec: the replacement `$1 new $2` of a catalog rule,
realised by replacing the old version inside the matched text. -/
def tsCatalogRepl (old new : List Char) (matched : List Char) : List Char :=
  replaceFirst (matchLiteralAt old) (fun _ _ => new) matched

/-- Modelled from the spec: the separator and trailing-separator forms of
the ts-… rules of the external catalog, tried independently. -/
def tsCatalog : List (Char × Bool) :=
  [(':', false), (':', true), ('=', false), ('=', true)]

/-- The impl `updateVersionInContent` without its final write: returns the
changed flag and the resulting content.  JSON files are gated by the exact
includes test from the source; ts files run every catalog rule in turn. -/
def updateVersionInContentImplPure (path content old new : List Char) : Bool × List Char :=
  if (lc ".json").isSuffixOf path || (lc ".jsonc").isSuffixOf path
      || (lc ".json5").isSuffixOf path then
    if containsSub (lc "\"version\": \"" ++ old ++ ['"']) content then
      (true, replaceFirst (matchLiteralAt (lc "\"version\": \"" ++ old ++ ['"']))
        (fun _ _ => pkjRender new) content)
    else (false, content)
  else if (lc ".ts").isSuffixOf path then
    tsCatalog.foldl (fun acc pc =>
      let m := matchTsCatalogAt pc.1 pc.2 old
      if (firstMatchFrom m acc.2).isSome then
        (true, replaceAll m (fun matched _ => tsCatalogRepl old new matched) acc.2)
      else acc) (false, content)
  else (false, content)

/-- One task of the pMap worker pool of the impl `bumpVersions`.  The write
happens inside `updateVersionInContent` whenever any pattern changed the
content — the dryRun flag is consulted only for logging, which is why it is
unused here.  The task body is wrapped in a catch that only logs, so an
absent file, a failed read and a failed write all leave the store as is. -/
def bumpVersionsFileStep (old new : List Char) (dryRun : Bool) (fs : SimFS)
    (file : List Char) : SimFS :=
  match readFs fs file with
  | .absent => fs
  | .failed => fs
  | .ok content =>
    let r := updateVersionInContentImplPure file content old new
    if r.1 then
      match writeFs fs file r.2 with
      | some fs2 => fs2
      | none => fs
    else fs

/-- Batch phase of the impl `bumpVersions`: every per-file exception is
swallowed by the per-task catch, so the batch always completes and never
raises an aggregate failure; the pMap pool is sequentialised, which is
faithful for the store because distinct tasks touch distinct paths. -/
def bumpVersionsImplBatch (old new : List Char) (dryRun : Bool)
    (files : List (List Char)) (fs : SimFS) : Except (List Char) SimFS :=
  .ok (files.foldl (bumpVersionsFileStep old new dryRun) fs)

/-- JS String.prototype.trim over the modelled whitespace class. -/
def trimChars (s : List Char) : List Char :=
  ((s.dropWhile isWsChar).reverse.dropWhile isWsChar).reverse

/-- Filter-to-glob translation of one trimmed, non-blank filter, from the
impl `bumpVersions`. -/
def filterPattern (t : List Char) : List Char :=
  if t.contains '*' || t.contains '?' then t
  else if t.contains '/' || t.contains '\\' then lc "**/" ++ t
  else if t.contains '.' then lc "**/" ++ t
  else lc "**/" ++ t ++ lc ".*"

/-- The file-pattern construction loop of the impl `bumpVersions`: blanks
are skipped, the rest translated; the empty filter list falls back to the
manifest pattern only. -/
def bumpFilterPatterns (bumpFilter : List (List Char)) : List (List Char) :=
  if bumpFilter.isEmpty then [lc "**/package.json"]
  else
    bumpFilter.foldl (fun acc f =>
      let t := trimChars f
      if t.isEmpty then acc else acc ++ [filterPattern t]) []

/-! Derived definitions used by the statements below. -/

/-- A manual-mode target that JS treats as falsy: undefined or empty. -/
def manualAbsent (o : Option (List Char)) : Prop := o = none ∨ o = some []

/-- Strict lexicographic order on version triples. -/
def lexLt (a b : Nat × Nat × Nat) : Prop :=
  a.1 < b.1 ∨ (a.1 = b.1 ∧ (a.2.1 < b.2.1 ∨ (a.2.1 = b.2.1 ∧ a.2.2 < b.2.2)))

/-- Shape facts of a region that a typescript match or its replacement
occupies: it starts with the literal `version` and contains a quote whose
preceding characters are quote-free and nonempty. -/
def tsRegion (x : List Char) : Prop :=
  x.take 7 = lc "version"
  ∧ ∃ x1 q x2, x = x1 ++ (q :: x2) ∧ x1 ≠ []
      ∧ (∀ a ∈ x1, notQ a = true) ∧ isQuoteChar q = true

/-- Inverse of splitDot, used to recover the shape of a parsed version. -/
def joinParts : List (List Char) → List Char
  | [] => []
  | [p] => p
  | p :: r => p ++ '.' :: joinParts r

/-! Helper lemmas on takeWhile, dropWhile and the leftmost-match search. -/

theorem takeWhile_append_all (p : Char → Bool) (l t : List Char)
    (h : ∀ a ∈ l, p a = true) : (l ++ t).takeWhile p = l ++ t.takeWhile p := by
  induction l with
  | nil => simp
  | cons c cs ih =>
    have hc : p c = true := h c (by simp)
    simp only [List.cons_append, List.takeWhile_cons, hc, if_true]
    rw [ih (fun a ha => h a (by simp [ha]))]

theorem dropWhile_append_all (p : Char → Bool) (l t : List Char)
    (h : ∀ a ∈ l, p a = true) : (l ++ t).dropWhile p = t.dropWhile p := by
  induction l with
  | nil => simp
  | cons c cs ih =>
    have hc : p c = true := h c (by simp)
    simp only [List.cons_append, List.dropWhile_cons, hc, if_true]
    exact ih (fun a ha => h a (by simp [ha]))

theorem takeWhile_append_not_all (p : Char → Bool) (l t : List Char)
    (h : l.all p = false) : (l ++ t).takeWhile p = l.takeWhile p := by
  induction l with
  | nil => simp at h
  | cons c cs ih =>
    by_cases hc : p c = true
    · simp only [List.all_cons, hc, Bool.true_and] at h
      simp only [List.cons_append, List.takeWhile_cons, hc, if_true]
      rw [ih h]
    · have hc2 : p c = false := by revert hc; cases p c <;> simp
      simp [List.takeWhile_cons, hc2]

theorem dropWhile_append_not_all (p : Char → Bool) (l t : List Char)
    (h : l.all p = false) : (l ++ t).dropWhile p = l.dropWhile p ++ t := by
  induction l with
  | nil => simp at h
  | cons c cs ih =>
    by_cases hc : p c = true
    · simp only [List.all_cons, hc, Bool.true_and] at h
      simp only [List.cons_append, List.dropWhile_cons, hc, if_true]
      exact ih h
    · have hc2 : p c = false := by revert hc; cases p c <;> simp
      simp [List.dropWhile_cons, hc2]

theorem dropWhile_head_not (p : Char → Bool) (l : List Char) (h : l.all p = false) :
    ∃ c r, l.dropWhile p = c :: r ∧ p c = false := by
  induction l with
  | nil => simp at h
  | cons c cs ih =>
    by_cases hc : p c = true
    · simp only [List.all_cons, hc, Bool.true_and] at h
      simpa [List.dropWhile_cons, hc] using ih h
    · have hc2 : p c = false := by revert hc; cases p c <;> simp
      exact ⟨c, cs, by simp [List.dropWhile_cons, hc2], hc2⟩

theorem takeWhile_append_cons (p : Char → Bool) (l : List Char) (b : Char)
    (t : List Char) (h : ∀ a ∈ l, p a = true) (hb : p b = false) :
    (l ++ b :: t).takeWhile p = l := by
  rw [takeWhile_append_all p l (b :: t) h, List.takeWhile_cons, hb]
  simp

theorem dropWhile_append_cons (p : Char → Bool) (l : List Char) (b : Char)
    (t : List Char) (h : ∀ a ∈ l, p a = true) (hb : p b = false) :
    (l ++ b :: t).dropWhile p = b :: t := by
  rw [dropWhile_append_all p l (b :: t) h, List.dropWhile_cons, hb]
  simp

theorem firstMatchFrom_some_matchAt (m : List Char → Option (Nat × List Char))
    (s : List Char) (i len : Nat) (cap : List Char)
    (h : firstMatchFrom m s = some (i, len, cap)) : m (s.drop i) = some (len, cap) := by
  induction s generalizing i with
  | nil =>
    cases hm : m [] with
    | none => simp [firstMatchFrom, hm] at h
    | some r =>
      obtain ⟨len1, cap1⟩ := r
      simp only [firstMatchFrom, hm, Option.map_some'] at h
      cases h
      simpa using hm
  | cons c t ih =>
    cases hm : m (c :: t) with
    | some r =>
      obtain ⟨len1, cap1⟩ := r
      simp only [firstMatchFrom, hm] at h
      cases h
      simpa using hm
    | none =>
      simp only [firstMatchFrom, hm, Option.map_eq_some'] at h
      obtain ⟨⟨i0, len0, cap0⟩, hx, he⟩ := h
      simp only [Prod.mk.injEq] at he
      obtain ⟨he1, he2, he3⟩ := he
      subst he1; subst he2; subst he3
      simpa using ih i0 hx

theorem firstMatchFrom_some_min (m : List Char → Option (Nat × List Char))
    (s : List Char) (i len : Nat) (cap : List Char)
    (h : firstMatchFrom m s = some (i, len, cap)) :
    ∀ j < i, m (s.drop j) = none := by
  induction s generalizing i with
  | nil =>
    cases hm : m [] with
    | none => simp [firstMatchFrom, hm] at h
    | some r =>
      obtain ⟨len1, cap1⟩ := r
      simp only [firstMatchFrom, hm, Option.map_some'] at h
      cases h
      omega
  | cons c t ih =>
    intro j hj
    cases hm : m (c :: t) with
    | some r =>
      obtain ⟨len1, cap1⟩ := r
      simp only [firstMatchFrom, hm] at h
      cases h
      omega
    | none =>
      simp only [firstMatchFrom, hm, Option.map_eq_some'] at h
      obtain ⟨⟨i0, len0, cap0⟩, hx, he⟩ := h
      simp only [Prod.mk.injEq] at he
      obtain ⟨he1, he2, he3⟩ := he
      subst he1; subst he2; subst he3
      cases j with
      | zero => simpa using hm
      | succ j0 => simpa using ih i0 hx j0 (by omega)

theorem firstMatchFrom_eq_some_of (m : List Char → Option (Nat × List Char))
    (s : List Char) (i : Nat) (r : Nat × List Char) (hi : i ≤ s.length)
    (hm : m (s.drop i) = some r) (hmin : ∀ j < i, m (s.drop j) = none) :
    firstMatchFrom m s = some (i, r) := by
  induction s generalizing i with
  | nil =>
    have : i = 0 := by simpa using hi
    subst this
    simp only [firstMatchFrom]
    simpa using congrArg (Option.map (fun x => ((0 : Nat), x))) hm
  | cons c t ih =>
    cases i with
    | zero =>
      simp only [List.drop_zero] at hm
      simp [firstMatchFrom, hm]
    | succ j =>
      have h0 : m (c :: t) = none := by simpa using hmin 0 (Nat.succ_pos j)
      simp only [firstMatchFrom, h0]
      have hrec := ih j (by simpa using hi) (by simpa using hm)
        (fun k hk => by simpa using hmin (k + 1) (by omega))
      rw [hrec]
      rfl

theorem contains_true_iff (l : List Char) (a : Char) : l.contains a = true ↔ a ∈ l := by
  rw [List.contains_iff_exists_mem_beq]
  constructor
  · rintro ⟨b, hb, he⟩
    have hab : a = b := by simpa using he
    subst hab
    exact hb
  · intro h
    exact ⟨a, h, by simp⟩

theorem isPrefixOf_decomp (l s : List Char) (h : l.isPrefixOf s = true) :
    s = l ++ s.drop l.length := by
  obtain ⟨t, rfl⟩ := List.isPrefixOf_iff_prefix.mp h
  rw [List.drop_left]

theorem isPrefixOf_append_self (l t : List Char) : l.isPrefixOf (l ++ t) = true :=
  List.isPrefixOf_iff_prefix.mpr (List.prefix_append l t)

theorem isEmpty_false_ne_nil (l : List Char) (h : l.isEmpty = false) : l ≠ [] := by
  cases l with
  | nil => simp at h
  | cons a t => simp

theorem ne_nil_isEmpty_false (l : List Char) (h : l ≠ []) : l.isEmpty = false := by
  cases l with
  | nil => exact absurd rfl h
  | cons a t => rfl

/-- Forward structure of a package.json regex match. -/
theorem matchPkjAt_some_structure (s : List Char) (len : Nat) (cap : List Char)
    (h : matchPkjAt s = some (len, cap)) :
    ∃ w1 w2 rest,
      s = lc "\"version\"" ++ (w1 ++ (':' :: (w2 ++ ('"' :: (cap ++ ('"' :: rest))))))
      ∧ (∀ a ∈ w1, isWsChar a = true) ∧ (∀ a ∈ w2, isWsChar a = true)
      ∧ (∀ a ∈ cap, notDq a = true) ∧ cap ≠ []
      ∧ len = 9 + w1.length + 1 + w2.length + 1 + cap.length + 1 := by
  cases hp : (lc "\"version\"").isPrefixOf s with
  | false => simp [matchPkjAt, hp] at h
  | true =>
    have hs : s = lc "\"version\"" ++ s.drop 9 := by
      have h0 := isPrefixOf_decomp _ _ hp
      rwa [show (lc "\"version\"").length = 9 from by decide] at h0
    simp only [matchPkjAt, hp, if_true, Option.map_eq_some'] at h
    obtain ⟨⟨n1, c1⟩, hcol, heq⟩ := h
    simp only [Prod.mk.injEq] at heq
    obtain ⟨hlen, hc1e⟩ := heq
    cases hd1 : (s.drop 9).dropWhile isWsChar with
    | nil => simp [pkjColon, hd1] at hcol
    | cons a1 t1 =>
      simp only [pkjColon, hd1] at hcol
      by_cases ha1 : a1 = ':'
      case neg => simp [ha1] at hcol
      case pos =>
        subst ha1
        rw [if_pos rfl, Option.map_eq_some'] at hcol
        obtain ⟨⟨n2, c2⟩, hq, heq2⟩ := hcol
        simp only [Prod.mk.injEq] at heq2
        obtain ⟨hlen2, hc2e⟩ := heq2
        cases hd2 : t1.dropWhile isWsChar with
        | nil => simp [pkjQuote, hd2] at hq
        | cons a2 t2 =>
          simp only [pkjQuote, hd2] at hq
          by_cases ha2 : a2 = '"'
          case neg => simp [ha2] at hq
          case pos =>
            subst ha2
            rw [if_pos rfl, Option.map_eq_some'] at hq
            obtain ⟨⟨n3, c3⟩, hcp, heq3⟩ := hq
            simp only [Prod.mk.injEq] at heq3
            obtain ⟨hlen3, hc3e⟩ := heq3
            rw [pkjCap] at hcp
            by_cases he : (t2.takeWhile notDq).isEmpty = true
            case pos => simp [he] at hcp
            case neg =>
              have he2 : (t2.takeWhile notDq).isEmpty = false := by
                revert he; cases (t2.takeWhile notDq).isEmpty <;> simp
              simp only [he2, Bool.false_eq_true, if_false] at hcp
              cases hd3 : t2.dropWhile notDq with
              | nil => simp [hd3] at hcp
              | cons a3 t3 =>
                simp only [hd3] at hcp
                by_cases ha3 : a3 = '"'
                case neg => simp [ha3] at hcp
                case pos =>
                  subst ha3
                  rw [if_pos rfl] at hcp
                  simp only [Option.some_inj, Prod.mk.injEq] at hcp
                  obtain ⟨hlen4, hc4e⟩ := hcp
                  have hTW : t2.takeWhile notDq = cap :=
                    hc4e.trans (hc3e.trans (hc2e.trans hc1e))
                  refine ⟨(s.drop 9).takeWhile isWsChar, t1.takeWhile isWsChar, t3,
                    ?_, ?_, ?_, ?_, ?_, ?_⟩
                  · have e3 : t2 = cap ++ ('"' :: t3) := by
                      rw [← hTW, ← hd3, List.takeWhile_append_dropWhile]
                    have e2 : t1 = t1.takeWhile isWsChar ++ ('"' :: t2) := by
                      rw [← hd2, List.takeWhile_append_dropWhile]
                    have e1 : s.drop 9
                        = (s.drop 9).takeWhile isWsChar ++ (':' :: t1) := by
                      rw [← hd1, List.takeWhile_append_dropWhile]
                    calc s = lc "\"version\"" ++ s.drop 9 := hs
                      _ = lc "\"version\""
                          ++ ((s.drop 9).takeWhile isWsChar ++ (':' :: t1)) := by
                        rw [← e1]
                      _ = lc "\"version\""
                          ++ ((s.drop 9).takeWhile isWsChar
                            ++ (':' :: (t1.takeWhile isWsChar ++ ('"' :: t2)))) := by
                        rw [← e2]
                      _ = lc "\"version\""
                          ++ ((s.drop 9).takeWhile isWsChar
                            ++ (':' :: (t1.takeWhile isWsChar
                              ++ ('"' :: (cap ++ ('"' :: t3)))))) := by
                        rw [← e3]
                  · intro a ha; exact List.mem_takeWhile_imp ha
                  · intro a ha; exact List.mem_takeWhile_imp ha
                  · intro a ha
                    rw [← hTW] at ha
                    exact List.mem_takeWhile_imp ha
                  · rw [← hTW]
                    exact isEmpty_false_ne_nil _ he2
                  · have hlc : cap.length = (t2.takeWhile notDq).length := by rw [hTW]
                    omega

theorem pkjCap_eval (cap rest : List Char) (hcap : ∀ a ∈ cap, notDq a = true)
    (hne : cap ≠ []) :
    pkjCap (cap ++ ('"' :: rest)) = some (cap.length + 1, cap) := by
  rw [pkjCap]
  rw [takeWhile_append_cons notDq cap '"' _ hcap (by decide)]
  rw [dropWhile_append_cons notDq cap '"' _ hcap (by decide)]
  rw [ne_nil_isEmpty_false cap hne]
  simp

theorem pkjQuote_eval (w t : List Char) (hw : ∀ a ∈ w, isWsChar a = true) :
    pkjQuote (w ++ ('"' :: t)) = (pkjCap t).map (fun r => (w.length + 1 + r.1, r.2)) := by
  rw [pkjQuote]
  rw [dropWhile_append_cons isWsChar w '"' _ hw (by decide)]
  rw [takeWhile_append_cons isWsChar w '"' _ hw (by decide)]
  simp

theorem pkjColon_eval (w t : List Char) (hw : ∀ a ∈ w, isWsChar a = true) :
    pkjColon (w ++ (':' :: t)) = (pkjQuote t).map (fun r => (w.length + 1 + r.1, r.2)) := by
  rw [pkjColon]
  rw [dropWhile_append_cons isWsChar w ':' _ hw (by decide)]
  rw [takeWhile_append_cons isWsChar w ':' _ hw (by decide)]
  simp

/-- A package.json match on a structured input. -/
theorem matchPkjAt_structure (w1 w2 cap rest : List Char)
    (hw1 : ∀ a ∈ w1, isWsChar a = true) (hw2 : ∀ a ∈ w2, isWsChar a = true)
    (hcap : ∀ a ∈ cap, notDq a = true) (hne : cap ≠ []) :
    matchPkjAt (lc "\"version\"" ++ (w1 ++ (':' :: (w2 ++ ('"' :: (cap ++ ('"' :: rest)))))))
      = some (9 + w1.length + 1 + w2.length + 1 + cap.length + 1, cap) := by
  have hdrop : (lc "\"version\""
      ++ (w1 ++ (':' :: (w2 ++ ('"' :: (cap ++ ('"' :: rest))))))).drop 9
      = w1 ++ (':' :: (w2 ++ ('"' :: (cap ++ ('"' :: rest))))) := by
    rw [show (9 : Nat) = (lc "\"version\"").length from by decide, List.drop_left]
  have h3 := pkjCap_eval cap rest hcap hne
  have h2 : pkjQuote (w2 ++ ('"' :: (cap ++ ('"' :: rest))))
      = some (w2.length + 1 + (cap.length + 1), cap) := by
    rw [pkjQuote_eval _ _ hw2, h3]
    rfl
  have h1 : pkjColon (w1 ++ (':' :: (w2 ++ ('"' :: (cap ++ ('"' :: rest))))))
      = some (w1.length + 1 + (w2.length + 1 + (cap.length + 1)), cap) := by
    rw [pkjColon_eval _ _ hw1, h2]
    rfl
  rw [matchPkjAt, isPrefixOf_append_self, if_pos rfl, hdrop, h1]
  have harith : 9 + (w1.length + 1 + (w2.length + 1 + (cap.length + 1)))
      = 9 + w1.length + 1 + w2.length + 1 + cap.length + 1 := by omega
  simp only [Option.map_some']
  rw [harith]

/-! Structure lemmas for the typescript regex. -/

theorem isQuote_cases (q : Char) (h : isQuoteChar q = true) : q = '"' ∨ q = sqc := by
  rcases Bool.or_eq_true_iff.mp h with h2 | h2
  · exact Or.inl (by simpa using h2)
  · exact Or.inr (by simpa using h2)

theorem isQuote_notQ_false (q : Char) (h : isQuoteChar q = true) : notQ q = false := by
  rcases isQuote_cases q h with h2 | h2 <;> subst h2 <;> decide

theorem isQuote_ws_false (q : Char) (h : isQuoteChar q = true) : isWsChar q = false := by
  rcases isQuote_cases q h with h2 | h2 <;> subst h2 <;> decide

theorem notQ_false_isQuote (q : Char) (h : notQ q = false) : isQuoteChar q = true := by
  rw [notQ, Bool.and_eq_false_iff] at h
  rcases h with h2 | h2
  · have : q = '"' := by
      revert h2
      cases hq : q == '"' with
      | true => intro _; simpa using hq
      | false => simp
    subst this
    decide
  · have : q = sqc := by
      revert h2
      cases hq : q == sqc with
      | true => intro _; simpa using hq
      | false => simp
    subst this
    decide

theorem sep_ws_false (c : Char) (h : c = '=' ∨ c = ':') : isWsChar c = false := by
  rcases h with h2 | h2 <;> subst h2 <;> decide

theorem tsCap_eval (cap rest : List Char) (q : Char) (hcap : ∀ a ∈ cap, notQ a = true)
    (hne : cap ≠ []) (hq : isQuoteChar q = true) :
    tsCap (cap ++ (q :: rest)) = some (cap.length + 1, cap) := by
  rw [tsCap]
  rw [takeWhile_append_cons notQ cap q _ hcap (isQuote_notQ_false q hq)]
  rw [dropWhile_append_cons notQ cap q _ hcap (isQuote_notQ_false q hq)]
  rw [ne_nil_isEmpty_false cap hne]
  simp [hq]

theorem tsQuoteOpen_eval (w t : List Char) (q : Char) (hw : ∀ a ∈ w, isWsChar a = true)
    (hq : isQuoteChar q = true) :
    tsQuoteOpen (w ++ (q :: t)) = (tsCap t).map (fun r => (w.length + 1 + r.1, r.2)) := by
  rw [tsQuoteOpen]
  rw [dropWhile_append_cons isWsChar w q _ hw (isQuote_ws_false q hq)]
  rw [takeWhile_append_cons isWsChar w q _ hw (isQuote_ws_false q hq)]
  simp [hq]

theorem tsSep_eval (w t : List Char) (c : Char) (hw : ∀ a ∈ w, isWsChar a = true)
    (hc : c = '=' ∨ c = ':') :
    tsSep (w ++ (c :: t)) = (tsQuoteOpen t).map (fun r => (w.length + 1 + r.1, r.2)) := by
  rw [tsSep]
  rw [dropWhile_append_cons isWsChar w c _ hw (sep_ws_false c hc)]
  rw [takeWhile_append_cons isWsChar w c _ hw (sep_ws_false c hc)]
  simp [hc]

/-- Alternative A match on a structured input. -/
theorem matchTsAAt_structure (w1 w2 cap rest : List Char) (op q q2 : Char)
    (hw1 : ∀ a ∈ w1, isWsChar a = true) (hw2 : ∀ a ∈ w2, isWsChar a = true)
    (hop : op = '=' ∨ op = ':') (hq : isQuoteChar q = true) (hq2 : isQuoteChar q2 = true)
    (hcap : ∀ a ∈ cap, notQ a = true) (hne : cap ≠ []) :
    matchTsAAt (lc "version" ++ (w1 ++ (op :: (w2 ++ (q :: (cap ++ (q2 :: rest)))))))
      = some (7 + w1.length + 1 + w2.length + 1 + cap.length + 1, cap) := by
  have hdrop : (lc "version"
      ++ (w1 ++ (op :: (w2 ++ (q :: (cap ++ (q2 :: rest))))))).drop 7
      = w1 ++ (op :: (w2 ++ (q :: (cap ++ (q2 :: rest))))) := by
    rw [show (7 : Nat) = (lc "version").length from by decide, List.drop_left]
  have h3 := tsCap_eval cap rest q2 hcap hne hq2
  have h2 : tsQuoteOpen (w2 ++ (q :: (cap ++ (q2 :: rest))))
      = some (w2.length + 1 + (cap.length + 1), cap) := by
    rw [tsQuoteOpen_eval _ _ q hw2 hq, h3]
    rfl
  have h1 : tsSep (w1 ++ (op :: (w2 ++ (q :: (cap ++ (q2 :: rest))))))
      = some (w1.length + 1 + (w2.length + 1 + (cap.length + 1)), cap) := by
    rw [tsSep_eval _ _ op hw1 hop, h2]
    rfl
  rw [matchTsAAt, isPrefixOf_append_self, if_pos rfl, hdrop, h1]
  have harith : 7 + (w1.length + 1 + (w2.length + 1 + (cap.length + 1)))
      = 7 + w1.length + 1 + w2.length + 1 + cap.length + 1 := by omega
  simp only [Option.map_some']
  rw [harith]

/-- Forward structure of an alternative A match. -/
theorem matchTsAAt_some_structure (s : List Char) (len : Nat) (cap : List Char)
    (h : matchTsAAt s = some (len, cap)) :
    ∃ w1 op w2 q q2 rest,
      s = lc "version" ++ (w1 ++ (op :: (w2 ++ (q :: (cap ++ (q2 :: rest))))))
      ∧ (∀ a ∈ w1, isWsChar a = true) ∧ (op = '=' ∨ op = ':')
      ∧ (∀ a ∈ w2, isWsChar a = true)
      ∧ isQuoteChar q = true ∧ isQuoteChar q2 = true
      ∧ (∀ a ∈ cap, notQ a = true) ∧ cap ≠ []
      ∧ len = 7 + w1.length + 1 + w2.length + 1 + cap.length + 1 := by
  cases hp : (lc "version").isPrefixOf s with
  | false => simp [matchTsAAt, hp] at h
  | true =>
    have hs : s = lc "version" ++ s.drop 7 := by
      have h0 := isPrefixOf_decomp _ _ hp
      rwa [show (lc "version").length = 7 from by decide] at h0
    simp only [matchTsAAt, hp, if_true, Option.map_eq_some'] at h
    obtain ⟨⟨n1, c1⟩, hsep, heq⟩ := h
    simp only [Prod.mk.injEq] at heq
    obtain ⟨hlen, hc1e⟩ := heq
    cases hd1 : (s.drop 7).dropWhile isWsChar with
    | nil => simp [tsSep, hd1] at hsep
    | cons a1 t1 =>
      simp only [tsSep, hd1] at hsep
      by_cases ha1 : a1 = '=' ∨ a1 = ':'
      case neg => simp [ha1] at hsep
      case pos =>
        rw [if_pos ha1, Option.map_eq_some'] at hsep
        obtain ⟨⟨n2, c2⟩, hqo, heq2⟩ := hsep
        simp only [Prod.mk.injEq] at heq2
        obtain ⟨hlen2, hc2e⟩ := heq2
        cases hd2 : t1.dropWhile isWsChar with
        | nil => simp [tsQuoteOpen, hd2] at hqo
        | cons a2 t2 =>
          simp only [tsQuoteOpen, hd2] at hqo
          by_cases ha2 : isQuoteChar a2 = true
          case neg => simp [ha2] at hqo
          case pos =>
            rw [if_pos ha2, Option.map_eq_some'] at hqo
            obtain ⟨⟨n3, c3⟩, hcp, heq3⟩ := hqo
            simp only [Prod.mk.injEq] at heq3
            obtain ⟨hlen3, hc3e⟩ := heq3
            rw [tsCap] at hcp
            by_cases he : (t2.takeWhile notQ).isEmpty = true
            case pos => simp [he] at hcp
            case neg =>
              have he2 : (t2.takeWhile notQ).isEmpty = false := by
                revert he; cases (t2.takeWhile notQ).isEmpty <;> simp
              simp only [he2, Bool.false_eq_true, if_false] at hcp
              cases hd3 : t2.dropWhile notQ with
              | nil => simp [hd3] at hcp
              | cons a3 t3 =>
                simp only [hd3] at hcp
                by_cases ha3 : isQuoteChar a3 = true
                case neg => simp [ha3] at hcp
                case pos =>
                  rw [if_pos ha3] at hcp
                  simp only [Option.some_inj, Prod.mk.injEq] at hcp
                  obtain ⟨hlen4, hc4e⟩ := hcp
                  have hTW : t2.takeWhile notQ = cap :=
                    hc4e.trans (hc3e.trans (hc2e.trans hc1e))
                  refine ⟨(s.drop 7).takeWhile isWsChar, a1, t1.takeWhile isWsChar,
                    a2, a3, t3, ?_, ?_, ha1, ?_, ha2, ha3, ?_, ?_, ?_⟩
                  · have e3 : t2 = cap ++ (a3 :: t3) := by
                      rw [← hTW, ← hd3, List.takeWhile_append_dropWhile]
                    have e2 : t1 = t1.takeWhile isWsChar ++ (a2 :: t2) := by
                      rw [← hd2, List.takeWhile_append_dropWhile]
                    have e1 : s.drop 7
                        = (s.drop 7).takeWhile isWsChar ++ (a1 :: t1) := by
                      rw [← hd1, List.takeWhile_append_dropWhile]
                    calc s = lc "version" ++ s.drop 7 := hs
                      _ = lc "version"
                          ++ ((s.drop 7).takeWhile isWsChar ++ (a1 :: t1)) := by
                        rw [← e1]
                      _ = lc "version"
                          ++ ((s.drop 7).takeWhile isWsChar
                            ++ (a1 :: (t1.takeWhile isWsChar ++ (a2 :: t2)))) := by
                        rw [← e2]
                      _ = lc "version"
                          ++ ((s.drop 7).takeWhile isWsChar
                            ++ (a1 :: (t1.takeWhile isWsChar
                              ++ (a2 :: (cap ++ (a3 :: t3)))))) := by
                        rw [← e3]
                  · intro a ha; exact List.mem_takeWhile_imp ha
                  · intro a ha; exact List.mem_takeWhile_imp ha
                  · intro a ha
                    rw [← hTW] at ha
                    exact List.mem_takeWhile_imp ha
                  · rw [← hTW]
                    exact isEmpty_false_ne_nil _ he2
                  · have hlc : cap.length = (t2.takeWhile notQ).length := by rw [hTW]
                    omega

/-- Forward structure of an alternative B match (only the decomposition,
used to show that B is subsumed by A). -/
theorem matchTsBAt_some_structure (s : List Char) (len : Nat) (cap : List Char)
    (h : matchTsBAt s = some (len, cap)) :
    ∃ w1 w2 q q2 w3 rest,
      s = lc "version"
        ++ (w1 ++ (':' :: (w2 ++ (q :: (cap ++ (q2 :: (w3 ++ (',' :: rest))))))))
      ∧ (∀ a ∈ w1, isWsChar a = true) ∧ (∀ a ∈ w2, isWsChar a = true)
      ∧ isQuoteChar q = true ∧ isQuoteChar q2 = true
      ∧ (∀ a ∈ cap, notQ a = true) ∧ cap ≠ [] := by
  cases hp : (lc "version").isPrefixOf s with
  | false => simp [matchTsBAt, hp] at h
  | true =>
    have hs : s = lc "version" ++ s.drop 7 := by
      have h0 := isPrefixOf_decomp _ _ hp
      rwa [show (lc "version").length = 7 from by decide] at h0
    simp only [matchTsBAt, hp, if_true, Option.map_eq_some'] at h
    obtain ⟨⟨n1, c1⟩, hcol, heq⟩ := h
    simp only [Prod.mk.injEq] at heq
    obtain ⟨hlen, hc1e⟩ := heq
    cases hd1 : (s.drop 7).dropWhile isWsChar with
    | nil => simp [tsColonB, hd1] at hcol
    | cons a1 t1 =>
      simp only [tsColonB, hd1] at hcol
      by_cases ha1 : a1 = ':'
      case neg => simp [ha1] at hcol
      case pos =>
        subst ha1
        rw [if_pos rfl, Option.map_eq_some'] at hcol
        obtain ⟨⟨n2, c2⟩, hqo, heq2⟩ := hcol
        simp only [Prod.mk.injEq] at heq2
        obtain ⟨hlen2, hc2e⟩ := heq2
        cases hd2 : t1.dropWhile isWsChar with
        | nil => simp [tsQuoteOpenB, hd2] at hqo
        | cons a2 t2 =>
          simp only [tsQuoteOpenB, hd2] at hqo
          by_cases ha2 : isQuoteChar a2 = true
          case neg => simp [ha2] at hqo
          case pos =>
            rw [if_pos ha2, Option.map_eq_some'] at hqo
            obtain ⟨⟨n3, c3⟩, hcp, heq3⟩ := hqo
            simp only [Prod.mk.injEq] at heq3
            obtain ⟨hlen3, hc3e⟩ := heq3
            rw [tsCapB] at hcp
            by_cases he : (t2.takeWhile notQ).isEmpty = true
            case pos => simp [he] at hcp
            case neg =>
              have he2 : (t2.takeWhile notQ).isEmpty = false := by
                revert he; cases (t2.takeWhile notQ).isEmpty <;> simp
              simp only [he2, Bool.false_eq_true, if_false] at hcp
              cases hd3 : t2.dropWhile notQ with
              | nil => simp [hd3] at hcp
              | cons a3 t3 =>
                simp only [hd3] at hcp
                by_cases ha3 : isQuoteChar a3 = true
                case neg => simp [ha3] at hcp
                case pos =>
                  rw [if_pos ha3, Option.map_eq_some'] at hcp
                  obtain ⟨n4, htc, heq4⟩ := hcp
                  simp only [Prod.mk.injEq] at heq4
                  obtain ⟨hlen4, hc4e⟩ := heq4
                  cases hd4 : t3.dropWhile isWsChar with
                  | nil => simp [tsTailComma, hd4] at htc
                  | cons a4 t4 =>
                    simp only [tsTailComma, hd4] at htc
                    by_cases ha4 : a4 = ','
                    case neg => simp [ha4] at htc
                    case pos =>
                      subst ha4
                      have hTW : t2.takeWhile notQ = cap :=
                        hc4e.trans (hc3e.trans (hc2e.trans hc1e))
                      refine ⟨(s.drop 7).takeWhile isWsChar, t1.takeWhile isWsChar,
                        a2, a3, t3.takeWhile isWsChar, t4, ?_, ?_, ?_, ha2, ha3, ?_, ?_⟩
                      · have e4 : t3 = t3.takeWhile isWsChar ++ (',' :: t4) := by
                          rw [← hd4, List.takeWhile_append_dropWhile]
                        have e3 : t2 = cap ++ (a3 :: t3) := by
                          rw [← hTW, ← hd3, List.takeWhile_append_dropWhile]
                        have e2 : t1 = t1.takeWhile isWsChar ++ (a2 :: t2) := by
                          rw [← hd2, List.takeWhile_append_dropWhile]
                        have e1 : s.drop 7
                            = (s.drop 7).takeWhile isWsChar ++ (':' :: t1) := by
                          rw [← hd1, List.takeWhile_append_dropWhile]
                        calc s = lc "version" ++ s.drop 7 := hs
                          _ = lc "version"
                              ++ ((s.drop 7).takeWhile isWsChar ++ (':' :: t1)) := by
                            rw [← e1]
                          _ = lc "version"
                              ++ ((s.drop 7).takeWhile isWsChar
                                ++ (':' :: (t1.takeWhile isWsChar ++ (a2 :: t2)))) := by
                            rw [← e2]
                          _ = lc "version"
                              ++ ((s.drop 7).takeWhile isWsChar
                                ++ (':' :: (t1.takeWhile isWsChar
                                  ++ (a2 :: (cap ++ (a3 :: t3)))))) := by
                            rw [← e3]
                          _ = lc "version"
                              ++ ((s.drop 7).takeWhile isWsChar
                                ++ (':' :: (t1.takeWhile isWsChar
                                  ++ (a2 :: (cap ++ (a3 :: (t3.takeWhile isWsChar
                                    ++ (',' :: t4)))))))) := by
                            rw [← e4]
                      · intro a ha; exact List.mem_takeWhile_imp ha
                      · intro a ha; exact List.mem_takeWhile_imp ha
                      · intro a ha
                        rw [← hTW] at ha
                        exact List.mem_takeWhile_imp ha
                      · rw [← hTW]
                        exact isEmpty_false_ne_nil _ he2

/-- The second alternative never decides a match: whenever it matches, the
first alternative matches as well, so the combined regex equals A. -/
theorem matchTs_eq_A (s : List Char) : matchTsAt s = matchTsAAt s := by
  cases ha : matchTsAAt s with
  | some r => simp [matchTsAt, ha]
  | none =>
    cases hb : matchTsBAt s with
    | none => simp [matchTsAt, ha, hb]
    | some r =>
      obtain ⟨len, cap⟩ := r
      obtain ⟨w1, w2, q, q2, w3, rest, hse, hw1, hw2, hq, hq2, hcap, hne⟩ :=
        matchTsBAt_some_structure s len cap hb
      have hA := matchTsAAt_structure w1 w2 cap (w3 ++ (',' :: rest)) ':' q q2
        hw1 hw2 (Or.inr rfl) hq hq2 hcap hne
      rw [← hse] at hA
      rw [hA] at ha
      cases ha

/-! Transfer lemmas: a match of the package.json regex that starts strictly
inside a prefix P sees at most the first characters of the region that
follows P, and those agree between any two regions that both start with the
literal characters of the pattern.  Hence the existence of such a match
does not depend on which of the two regions follows P. -/

theorem notDq_false_eq (c : Char) (h : notDq c = false) : c = '"' := by
  rw [notDq] at h
  revert h
  cases hq : c == '"' with
  | true => intro _; simpa using hq
  | false => simp

theorem pkjCap_transfer (P xt yt : List Char) :
    (pkjCap (P ++ ('"' :: xt))).isSome = (pkjCap (P ++ ('"' :: yt))).isSome := by
  cases hall : P.all notDq with
  | true =>
    have hPall : ∀ a ∈ P, notDq a = true := List.all_eq_true.mp hall
    rw [pkjCap, pkjCap]
    rw [takeWhile_append_cons notDq P '"' xt hPall (by decide)]
    rw [takeWhile_append_cons notDq P '"' yt hPall (by decide)]
    rw [dropWhile_append_cons notDq P '"' xt hPall (by decide)]
    rw [dropWhile_append_cons notDq P '"' yt hPall (by decide)]
  | false =>
    obtain ⟨d, P5, hd, hdf⟩ := dropWhile_head_not notDq P hall
    have hde : d = '"' := notDq_false_eq d hdf
    subst hde
    rw [pkjCap, pkjCap]
    rw [takeWhile_append_not_all notDq P _ hall]
    rw [takeWhile_append_not_all notDq P _ hall]
    rw [dropWhile_append_not_all notDq P _ hall]
    rw [dropWhile_append_not_all notDq P _ hall]
    rw [hd]
    cases he : (P.takeWhile notDq).isEmpty with
    | true => simp [he]
    | false => simp [he]

theorem pkjQuote_eval_fail (w t : List Char) (c : Char)
    (hw : ∀ a ∈ w, isWsChar a = true) (hcw : isWsChar c = false) (hc : ¬ c = '"') :
    pkjQuote (w ++ (c :: t)) = none := by
  rw [pkjQuote, dropWhile_append_cons isWsChar w c t hw hcw]
  simp [hc]

theorem pkjColon_eval_fail (w t : List Char) (c : Char)
    (hw : ∀ a ∈ w, isWsChar a = true) (hcw : isWsChar c = false) (hc : ¬ c = ':') :
    pkjColon (w ++ (c :: t)) = none := by
  rw [pkjColon, dropWhile_append_cons isWsChar w c t hw hcw]
  simp [hc]

theorem pkjQuote_transfer (P xt yt : List Char) :
    (pkjQuote (P ++ (lc "\"version\"" ++ xt))).isSome
      = (pkjQuote (P ++ (lc "\"version\"" ++ yt))).isSome := by
  have hsplit : ∀ zt : List Char, lc "\"version\"" ++ zt
      = '"' :: (lc "version\"" ++ zt) := by
    intro zt
    rw [show lc "\"version\"" = '"' :: lc "version\"" from by decide]
    rfl
  have hsplit2 : ∀ zt : List Char, lc "version\"" ++ zt
      = lc "version" ++ ('"' :: zt) := by
    intro zt
    rw [show lc "version\"" = lc "version" ++ ['"'] from by decide]
    simp
  cases hall : P.all isWsChar with
  | true =>
    have hPall : ∀ a ∈ P, isWsChar a = true := List.all_eq_true.mp hall
    rw [hsplit xt, hsplit yt]
    rw [pkjQuote_eval P _ hPall, pkjQuote_eval P _ hPall]
    rw [hsplit2 xt, hsplit2 yt]
    rw [pkjCap_eval (lc "version") xt (by decide) (by decide)]
    rw [pkjCap_eval (lc "version") yt (by decide) (by decide)]
  | false =>
    obtain ⟨d, P5, hd, hdf⟩ := dropWhile_head_not isWsChar P hall
    have hPdec : P = P.takeWhile isWsChar ++ (d :: P5) := by
      rw [← hd, List.takeWhile_append_dropWhile]
    have hPw : ∀ a ∈ P.takeWhile isWsChar, isWsChar a = true :=
      fun a ha => List.mem_takeWhile_imp ha
    have hre : ∀ z : List Char,
        P ++ z = P.takeWhile isWsChar ++ (d :: (P5 ++ z)) := by
      intro z
      conv_lhs => rw [hPdec]
      simp [List.append_assoc]
    rw [hre, hre]
    by_cases hdq : d = '"'
    · subst hdq
      rw [pkjQuote_eval _ _ hPw, pkjQuote_eval _ _ hPw]
      rw [Option.isSome_map', Option.isSome_map']
      rw [hsplit xt, hsplit yt]
      exact pkjCap_transfer P5 (lc "version\"" ++ xt) (lc "version\"" ++ yt)
    · rw [pkjQuote_eval_fail _ _ d hPw hdf hdq, pkjQuote_eval_fail _ _ d hPw hdf hdq]

theorem pkjColon_transfer (P xt yt : List Char) :
    (pkjColon (P ++ (lc "\"version\"" ++ xt))).isSome
      = (pkjColon (P ++ (lc "\"version\"" ++ yt))).isSome := by
  have hsplit : ∀ zt : List Char, lc "\"version\"" ++ zt
      = '"' :: (lc "version\"" ++ zt) := by
    intro zt
    rw [show lc "\"version\"" = '"' :: lc "version\"" from by decide]
    rfl
  cases hall : P.all isWsChar with
  | true =>
    have hPall : ∀ a ∈ P, isWsChar a = true := List.all_eq_true.mp hall
    rw [hsplit xt, hsplit yt]
    rw [pkjColon_eval_fail P _ '"' hPall (by decide) (by decide)]
    rw [pkjColon_eval_fail P _ '"' hPall (by decide) (by decide)]
  | false =>
    obtain ⟨d, P5, hd, hdf⟩ := dropWhile_head_not isWsChar P hall
    have hPdec : P = P.takeWhile isWsChar ++ (d :: P5) := by
      rw [← hd, List.takeWhile_append_dropWhile]
    have hPw : ∀ a ∈ P.takeWhile isWsChar, isWsChar a = true :=
      fun a ha => List.mem_takeWhile_imp ha
    have hre : ∀ z : List Char,
        P ++ z = P.takeWhile isWsChar ++ (d :: (P5 ++ z)) := by
      intro z
      conv_lhs => rw [hPdec]
      simp [List.append_assoc]
    rw [hre, hre]
    by_cases hdc : d = ':'
    · subst hdc
      rw [pkjColon_eval _ _ hPw, pkjColon_eval _ _ hPw]
      rw [Option.isSome_map', Option.isSome_map']
      exact pkjQuote_transfer P5 xt yt
    · rw [pkjColon_eval_fail _ _ d hPw hdf hdc, pkjColon_eval_fail _ _ d hPw hdf hdc]

theorem pkjColon_head_fail (c : Char) (t : List Char) (hws : isWsChar c = false)
    (hc : ¬ c = ':') : pkjColon (c :: t) = none := by
  rw [pkjColon, List.dropWhile_cons, hws]
  simp [hc]

theorem pkjColon_lit9_drop (k : Nat) (h1 : 1 ≤ k) (h2 : k ≤ 8) (z : List Char) :
    pkjColon ((lc "\"version\"").drop k ++ z) = none := by
  interval_cases k
  · rw [show (lc "\"version\"").drop 1 = 'v' :: lc "ersion\"" from by decide,
      List.cons_append]
    exact pkjColon_head_fail _ _ (by decide) (by decide)
  · rw [show (lc "\"version\"").drop 2 = 'e' :: lc "rsion\"" from by decide,
      List.cons_append]
    exact pkjColon_head_fail _ _ (by decide) (by decide)
  · rw [show (lc "\"version\"").drop 3 = 'r' :: lc "sion\"" from by decide,
      List.cons_append]
    exact pkjColon_head_fail _ _ (by decide) (by decide)
  · rw [show (lc "\"version\"").drop 4 = 's' :: lc "ion\"" from by decide,
      List.cons_append]
    exact pkjColon_head_fail _ _ (by decide) (by decide)
  · rw [show (lc "\"version\"").drop 5 = 'i' :: lc "on\"" from by decide,
      List.cons_append]
    exact pkjColon_head_fail _ _ (by decide) (by decide)
  · rw [show (lc "\"version\"").drop 6 = 'o' :: lc "n\"" from by decide,
      List.cons_append]
    exact pkjColon_head_fail _ _ (by decide) (by decide)
  · rw [show (lc "\"version\"").drop 7 = 'n' :: lc "\"" from by decide,
      List.cons_append]
    exact pkjColon_head_fail _ _ (by decide) (by decide)
  · rw [show (lc "\"version\"").drop 8 = '"' :: lc "" from by decide,
      List.cons_append]
    exact pkjColon_head_fail _ _ (by decide) (by decide)

theorem isPrefixOf_iff_take (l s : List Char) :
    l.isPrefixOf s = true ↔ s.take l.length = l := by
  rw [List.isPrefixOf_iff_prefix, List.prefix_iff_eq_take]
  exact ⟨fun h => h.symm, fun h => h.symm⟩

/-- The package.json transfer lemma: inside a nonempty prefix P, a match
exists in front of region x exactly when it exists in front of region y,
provided both regions start with the nine literal characters. -/
theorem matchPkjAt_transfer (P x y : List Char) (hP : P ≠ [])
    (hx : x.take 9 = lc "\"version\"") (hy : y.take 9 = lc "\"version\"") :
    (matchPkjAt (P ++ x)).isSome = (matchPkjAt (P ++ y)).isSome := by
  have hxlen : 9 ≤ x.length := by
    have h0 := congrArg List.length hx
    rw [List.length_take, show (lc "\"version\"").length = 9 from by decide] at h0
    omega
  have hylen : 9 ≤ y.length := by
    have h0 := congrArg List.length hy
    rw [List.length_take, show (lc "\"version\"").length = 9 from by decide] at h0
    omega
  have hxdec : x = lc "\"version\"" ++ x.drop 9 := by
    conv_lhs => rw [← List.take_append_drop 9 x]
    rw [hx]
  have hydec : y = lc "\"version\"" ++ y.drop 9 := by
    conv_lhs => rw [← List.take_append_drop 9 y]
    rw [hy]
  have htake : (P ++ x).take 9 = (P ++ y).take 9 := by
    rw [List.take_append_eq_append_take, List.take_append_eq_append_take]
    have hx9 : x.take (9 - P.length) = y.take (9 - P.length) := by
      have e1 : x.take (9 - P.length) = (x.take 9).take (9 - P.length) := by
        rw [List.take_take]
        congr 1
        omega
      have e2 : y.take (9 - P.length) = (y.take 9).take (9 - P.length) := by
        rw [List.take_take]
        congr 1
        omega
      rw [e1, e2, hx, hy]
    rw [hx9]
  have hpre : (lc "\"version\"").isPrefixOf (P ++ x)
      = (lc "\"version\"").isPrefixOf (P ++ y) := by
    cases hb : (lc "\"version\"").isPrefixOf (P ++ y) with
    | true =>
      rw [isPrefixOf_iff_take] at hb ⊢
      rw [show (lc "\"version\"").length = 9 from by decide] at hb ⊢
      rw [htake, hb]
    | false =>
      cases hb2 : (lc "\"version\"").isPrefixOf (P ++ x) with
      | false => rfl
      | true =>
        rw [isPrefixOf_iff_take] at hb2
        rw [show (lc "\"version\"").length = 9 from by decide] at hb2
        rw [htake] at hb2
        rw [← show (lc "\"version\"").length = 9 from by decide] at hb2
        rw [← isPrefixOf_iff_take] at hb2
        rw [hb] at hb2
        cases hb2
  cases hb : (lc "\"version\"").isPrefixOf (P ++ y) with
  | false =>
    rw [matchPkjAt, matchPkjAt, hb, hpre.trans hb]
    simp
  | true =>
    rw [matchPkjAt, matchPkjAt, hb, hpre.trans hb]
    rw [if_pos rfl, if_pos rfl]
    rw [Option.isSome_map', Option.isSome_map']
    rw [List.drop_append_eq_append_drop, List.drop_append_eq_append_drop]
    by_cases hPl : 9 ≤ P.length
    · have h90 : 9 - P.length = 0 := by omega
      rw [h90, List.drop_zero, List.drop_zero]
      conv_lhs => rw [hxdec]
      conv_rhs => rw [hydec]
      exact pkjColon_transfer (P.drop 9) (x.drop 9) (y.drop 9)
    · have hPd : P.drop 9 = [] := by
        rw [List.drop_eq_nil_iff]
        omega
      rw [hPd, List.nil_append, List.nil_append]
      have hk1 : 1 ≤ 9 - P.length := by omega
      have hk2 : 9 - P.length ≤ 8 := by
        have hone : 1 ≤ P.length := by
          cases P with
          | nil => exact absurd rfl hP
          | cons a t => simp
        omega
      have hxk : x.drop (9 - P.length)
          = (lc "\"version\"").drop (9 - P.length) ++ x.drop 9 := by
        conv_lhs => rw [hxdec]
        rw [List.drop_append_eq_append_drop]
        have h0 : 9 - P.length - (lc "\"version\"").length = 0 := by
          rw [show (lc "\"version\"").length = 9 from by decide]
          omega
        rw [h0, List.drop_zero]
      have hyk : y.drop (9 - P.length)
          = (lc "\"version\"").drop (9 - P.length) ++ y.drop 9 := by
        conv_lhs => rw [hydec]
        rw [List.drop_append_eq_append_drop]
        have h0 : 9 - P.length - (lc "\"version\"").length = 0 := by
          rw [show (lc "\"version\"").length = 9 from by decide]
          omega
        rw [h0, List.drop_zero]
      rw [hxk, hyk]
      rw [pkjColon_lit9_drop _ hk1 hk2, pkjColon_lit9_drop _ hk1 hk2]

/-! Transfer lemmas for the typescript regex. -/

theorem ws_notQ (a : Char) (h : isWsChar a = true) : notQ a = true := by
  cases hn : notQ a with
  | true => rfl
  | false =>
    have hq := notQ_false_isQuote a hn
    rw [isQuote_ws_false a hq] at h
    cases h

theorem sep_notQ (c : Char) (h : c = '=' ∨ c = ':') : notQ c = true := by
  rcases h with h2 | h2 <;> subst h2 <;> decide

theorem tsCap_head_fail (c : Char) (t : List Char) (hc : notQ c = false) :
    tsCap (c :: t) = none := by
  rw [tsCap]
  simp [List.takeWhile_cons, hc]

theorem tsCap_transfer (P x y : List Char)
    (hx : ∃ x1 q x2, x = x1 ++ (q :: x2) ∧ x1 ≠ []
      ∧ (∀ a ∈ x1, notQ a = true) ∧ isQuoteChar q = true)
    (hy : ∃ y1 p y2, y = y1 ++ (p :: y2) ∧ y1 ≠ []
      ∧ (∀ a ∈ y1, notQ a = true) ∧ isQuoteChar p = true) :
    (tsCap (P ++ x)).isSome = (tsCap (P ++ y)).isSome := by
  obtain ⟨x1, q, x2, hxd, hx1, hx1q, hq⟩ := hx
  obtain ⟨y1, p, y2, hyd, hy1, hy1q, hp⟩ := hy
  cases hall : P.all notQ with
  | true =>
    have hPall : ∀ a ∈ P, notQ a = true := List.all_eq_true.mp hall
    have hrx : P ++ x = (P ++ x1) ++ (q :: x2) := by rw [hxd, List.append_assoc]
    have hry : P ++ y = (P ++ y1) ++ (p :: y2) := by rw [hyd, List.append_assoc]
    rw [hrx, hry]
    rw [tsCap_eval (P ++ x1) x2 q
      (fun a ha => by
        rcases List.mem_append.mp ha with h2 | h2
        · exact hPall a h2
        · exact hx1q a h2)
      (by
        intro h2
        rcases List.append_eq_nil.mp h2 with ⟨_, h3⟩
        exact hx1 h3) hq]
    rw [tsCap_eval (P ++ y1) y2 p
      (fun a ha => by
        rcases List.mem_append.mp ha with h2 | h2
        · exact hPall a h2
        · exact hy1q a h2)
      (by
        intro h2
        rcases List.append_eq_nil.mp h2 with ⟨_, h3⟩
        exact hy1 h3) hp]
    rfl
  | false =>
    obtain ⟨d, P5, hd, hdf⟩ := dropWhile_head_not notQ P hall
    have hdq : isQuoteChar d = true := notQ_false_isQuote d hdf
    have hPdec : P = P.takeWhile notQ ++ (d :: P5) := by
      rw [← hd, List.takeWhile_append_dropWhile]
    have hPw : ∀ a ∈ P.takeWhile notQ, notQ a = true :=
      fun a ha => List.mem_takeWhile_imp ha
    have hre : ∀ z : List Char,
        P ++ z = P.takeWhile notQ ++ (d :: (P5 ++ z)) := by
      intro z
      conv_lhs => rw [hPdec]
      simp [List.append_assoc]
    rw [hre, hre]
    cases he : (P.takeWhile notQ).isEmpty with
    | true =>
      have he2 : P.takeWhile notQ = [] := by
        cases hc : P.takeWhile notQ with
        | nil => rfl
        | cons a t => rw [hc] at he; cases he
      rw [he2, List.nil_append, List.nil_append]
      rw [tsCap_head_fail d _ hdf, tsCap_head_fail d _ hdf]
    | false =>
      rw [tsCap_eval _ _ d hPw (isEmpty_false_ne_nil _ he) hdq]
      rw [tsCap_eval _ _ d hPw (isEmpty_false_ne_nil _ he) hdq]

theorem tsQuoteOpen_eval_fail (w t : List Char) (c : Char)
    (hw : ∀ a ∈ w, isWsChar a = true) (hcw : isWsChar c = false)
    (hc : isQuoteChar c = false) : tsQuoteOpen (w ++ (c :: t)) = none := by
  rw [tsQuoteOpen, dropWhile_append_cons isWsChar w c t hw hcw]
  simp [hc]

theorem tsSep_eval_fail (w t : List Char) (c : Char)
    (hw : ∀ a ∈ w, isWsChar a = true) (hcw : isWsChar c = false)
    (hc : ¬ (c = '=' ∨ c = ':')) : tsSep (w ++ (c :: t)) = none := by
  rw [tsSep, dropWhile_append_cons isWsChar w c t hw hcw]
  simp [hc]

theorem tsQuoteOpen_transfer (P x y : List Char)
    (hx7 : x.take 7 = lc "version") (hy7 : y.take 7 = lc "version")
    (hx : ∃ x1 q x2, x = x1 ++ (q :: x2) ∧ x1 ≠ []
      ∧ (∀ a ∈ x1, notQ a = true) ∧ isQuoteChar q = true)
    (hy : ∃ y1 p y2, y = y1 ++ (p :: y2) ∧ y1 ≠ []
      ∧ (∀ a ∈ y1, notQ a = true) ∧ isQuoteChar p = true) :
    (tsQuoteOpen (P ++ x)).isSome = (tsQuoteOpen (P ++ y)).isSome := by
  have hxdec : x = 'v' :: (lc "ersion" ++ x.drop 7) := by
    conv_lhs => rw [← List.take_append_drop 7 x]
    rw [hx7]
    rfl
  have hydec : y = 'v' :: (lc "ersion" ++ y.drop 7) := by
    conv_lhs => rw [← List.take_append_drop 7 y]
    rw [hy7]
    rfl
  cases hall : P.all isWsChar with
  | true =>
    have hPall : ∀ a ∈ P, isWsChar a = true := List.all_eq_true.mp hall
    conv_lhs => rw [hxdec]
    conv_rhs => rw [hydec]
    rw [tsQuoteOpen_eval_fail P _ 'v' hPall (by decide) (by decide)]
    rw [tsQuoteOpen_eval_fail P _ 'v' hPall (by decide) (by decide)]
  | false =>
    obtain ⟨d, P5, hd, hdf⟩ := dropWhile_head_not isWsChar P hall
    have hPdec : P = P.takeWhile isWsChar ++ (d :: P5) := by
      rw [← hd, List.takeWhile_append_dropWhile]
    have hPw : ∀ a ∈ P.takeWhile isWsChar, isWsChar a = true :=
      fun a ha => List.mem_takeWhile_imp ha
    have hre : ∀ z : List Char,
        P ++ z = P.takeWhile isWsChar ++ (d :: (P5 ++ z)) := by
      intro z
      conv_lhs => rw [hPdec]
      simp [List.append_assoc]
    rw [hre, hre]
    cases hdq : isQuoteChar d with
    | true =>
      rw [tsQuoteOpen_eval _ _ d hPw hdq, tsQuoteOpen_eval _ _ d hPw hdq]
      rw [Option.isSome_map', Option.isSome_map']
      exact tsCap_transfer P5 x y hx hy
    | false =>
      rw [tsQuoteOpen_eval_fail _ _ d hPw hdf hdq]
      rw [tsQuoteOpen_eval_fail _ _ d hPw hdf hdq]

theorem tsSep_transfer (P x y : List Char)
    (hx7 : x.take 7 = lc "version") (hy7 : y.take 7 = lc "version")
    (hx : ∃ x1 q x2, x = x1 ++ (q :: x2) ∧ x1 ≠ []
      ∧ (∀ a ∈ x1, notQ a = true) ∧ isQuoteChar q = true)
    (hy : ∃ y1 p y2, y = y1 ++ (p :: y2) ∧ y1 ≠ []
      ∧ (∀ a ∈ y1, notQ a = true) ∧ isQuoteChar p = true) :
    (tsSep (P ++ x)).isSome = (tsSep (P ++ y)).isSome := by
  have hxdec : x = 'v' :: (lc "ersion" ++ x.drop 7) := by
    conv_lhs => rw [← List.take_append_drop 7 x]
    rw [hx7]
    rfl
  have hydec : y = 'v' :: (lc "ersion" ++ y.drop 7) := by
    conv_lhs => rw [← List.take_append_drop 7 y]
    rw [hy7]
    rfl
  cases hall : P.all isWsChar with
  | true =>
    have hPall : ∀ a ∈ P, isWsChar a = true := List.all_eq_true.mp hall
    conv_lhs => rw [hxdec]
    conv_rhs => rw [hydec]
    rw [tsSep_eval_fail P _ 'v' hPall (by decide) (by decide)]
    rw [tsSep_eval_fail P _ 'v' hPall (by decide) (by decide)]
  | false =>
    obtain ⟨d, P5, hd, hdf⟩ := dropWhile_head_not isWsChar P hall
    have hPdec : P = P.takeWhile isWsChar ++ (d :: P5) := by
      rw [← hd, List.takeWhile_append_dropWhile]
    have hPw : ∀ a ∈ P.takeWhile isWsChar, isWsChar a = true :=
      fun a ha => List.mem_takeWhile_imp ha
    have hre : ∀ z : List Char,
        P ++ z = P.takeWhile isWsChar ++ (d :: (P5 ++ z)) := by
      intro z
      conv_lhs => rw [hPdec]
      simp [List.append_assoc]
    rw [hre, hre]
    by_cases hdc : d = '=' ∨ d = ':'
    · rw [tsSep_eval _ _ d hPw hdc, tsSep_eval _ _ d hPw hdc]
      rw [Option.isSome_map', Option.isSome_map']
      exact tsQuoteOpen_transfer P5 x y hx7 hy7 hx hy
    · rw [tsSep_eval_fail _ _ d hPw hdf hdc, tsSep_eval_fail _ _ d hPw hdf hdc]

theorem tsSep_head_fail (c : Char) (t : List Char) (hws : isWsChar c = false)
    (hc : ¬ (c = '=' ∨ c = ':')) : tsSep (c :: t) = none := by
  rw [tsSep, List.dropWhile_cons, hws]
  simp [hc]

theorem tsSep_lit7_drop (k : Nat) (h1 : 1 ≤ k) (h2 : k ≤ 6) (z : List Char) :
    tsSep ((lc "version").drop k ++ z) = none := by
  interval_cases k
  · rw [show (lc "version").drop 1 = 'e' :: lc "rsion" from by decide,
      List.cons_append]
    exact tsSep_head_fail _ _ (by decide) (by decide)
  · rw [show (lc "version").drop 2 = 'r' :: lc "sion" from by decide,
      List.cons_append]
    exact tsSep_head_fail _ _ (by decide) (by decide)
  · rw [show (lc "version").drop 3 = 's' :: lc "ion" from by decide,
      List.cons_append]
    exact tsSep_head_fail _ _ (by decide) (by decide)
  · rw [show (lc "version").drop 4 = 'i' :: lc "on" from by decide,
      List.cons_append]
    exact tsSep_head_fail _ _ (by decide) (by decide)
  · rw [show (lc "version").drop 5 = 'o' :: lc "n" from by decide,
      List.cons_append]
    exact tsSep_head_fail _ _ (by decide) (by decide)
  · rw [show (lc "version").drop 6 = 'n' :: lc "" from by decide,
      List.cons_append]
    exact tsSep_head_fail _ _ (by decide) (by decide)

/-- The typescript transfer lemma for alternative A. -/
theorem matchTsAAt_transfer (P x y : List Char) (hP : P ≠ [])
    (hx : tsRegion x) (hy : tsRegion y) :
    (matchTsAAt (P ++ x)).isSome = (matchTsAAt (P ++ y)).isSome := by
  obtain ⟨hx7, hxq⟩ := hx
  obtain ⟨hy7, hyq⟩ := hy
  have hxlen : 7 ≤ x.length := by
    have h0 := congrArg List.length hx7
    rw [List.length_take, show (lc "version").length = 7 from by decide] at h0
    omega
  have hylen : 7 ≤ y.length := by
    have h0 := congrArg List.length hy7
    rw [List.length_take, show (lc "version").length = 7 from by decide] at h0
    omega
  have hxdec : x = lc "version" ++ x.drop 7 := by
    conv_lhs => rw [← List.take_append_drop 7 x]
    rw [hx7]
  have hydec : y = lc "version" ++ y.drop 7 := by
    conv_lhs => rw [← List.take_append_drop 7 y]
    rw [hy7]
  have htake : (P ++ x).take 7 = (P ++ y).take 7 := by
    rw [List.take_append_eq_append_take, List.take_append_eq_append_take]
    have hx9 : x.take (7 - P.length) = y.take (7 - P.length) := by
      have e1 : x.take (7 - P.length) = (x.take 7).take (7 - P.length) := by
        rw [List.take_take]
        congr 1
        omega
      have e2 : y.take (7 - P.length) = (y.take 7).take (7 - P.length) := by
        rw [List.take_take]
        congr 1
        omega
      rw [e1, e2, hx7, hy7]
    rw [hx9]
  have hpre : (lc "version").isPrefixOf (P ++ x)
      = (lc "version").isPrefixOf (P ++ y) := by
    cases hb : (lc "version").isPrefixOf (P ++ y) with
    | true =>
      rw [isPrefixOf_iff_take] at hb ⊢
      rw [show (lc "version").length = 7 from by decide] at hb ⊢
      rw [htake, hb]
    | false =>
      cases hb2 : (lc "version").isPrefixOf (P ++ x) with
      | false => rfl
      | true =>
        rw [isPrefixOf_iff_take] at hb2
        rw [show (lc "version").length = 7 from by decide] at hb2
        rw [htake] at hb2
        rw [← show (lc "version").length = 7 from by decide] at hb2
        rw [← isPrefixOf_iff_take] at hb2
        rw [hb] at hb2
        cases hb2
  cases hb : (lc "version").isPrefixOf (P ++ y) with
  | false =>
    rw [matchTsAAt, matchTsAAt, hb, hpre.trans hb]
    simp
  | true =>
    rw [matchTsAAt, matchTsAAt, hb, hpre.trans hb]
    rw [if_pos rfl, if_pos rfl]
    rw [Option.isSome_map', Option.isSome_map']
    rw [List.drop_append_eq_append_drop, List.drop_append_eq_append_drop]
    by_cases hPl : 7 ≤ P.length
    · have h90 : 7 - P.length = 0 := by omega
      rw [h90, List.drop_zero, List.drop_zero]
      exact tsSep_transfer (P.drop 7) x y hx7 hy7 hxq hyq
    · have hPd : P.drop 7 = [] := by
        rw [List.drop_eq_nil_iff]
        omega
      rw [hPd, List.nil_append, List.nil_append]
      have hk1 : 1 ≤ 7 - P.length := by omega
      have hk2 : 7 - P.length ≤ 6 := by
        have hone : 1 ≤ P.length := by
          cases P with
          | nil => exact absurd rfl hP
          | cons a t => simp
        omega
      have hxk : x.drop (7 - P.length)
          = (lc "version").drop (7 - P.length) ++ x.drop 7 := by
        conv_lhs => rw [hxdec]
        rw [List.drop_append_eq_append_drop]
        have h0 : 7 - P.length - (lc "version").length = 0 := by
          rw [show (lc "version").length = 7 from by decide]
          omega
        rw [h0, List.drop_zero]
      have hyk : y.drop (7 - P.length)
          = (lc "version").drop (7 - P.length) ++ y.drop 7 := by
        conv_lhs => rw [hydec]
        rw [List.drop_append_eq_append_drop]
        have h0 : 7 - P.length - (lc "version").length = 0 := by
          rw [show (lc "version").length = 7 from by decide]
          omega
        rw [h0, List.drop_zero]
      rw [hxk, hyk]
      rw [tsSep_lit7_drop _ hk1 hk2, tsSep_lit7_drop _ hk1 hk2]

/-- The typescript transfer lemma for the combined regex. -/
theorem matchTsAt_transfer (P x y : List Char) (hP : P ≠ [])
    (hx : tsRegion x) (hy : tsRegion y) :
    (matchTsAt (P ++ x)).isSome = (matchTsAt (P ++ y)).isSome := by
  rw [matchTs_eq_A, matchTs_eq_A]
  exact matchTsAAt_transfer P x y hP hx hy

/-- C9: each non-blank filter is translated by the verbatim-wildcard,
recursive-prefix-for-path-or-dot, stem-expansion policy, and an empty
filter list yields only the manifest pattern. -/
theorem c9_filter_to_glob_translation :
    (bumpFilterPatterns [] = [lc "**/package.json"])
    ∧ (∀ fl : List (List Char), fl ≠ [] →
        bumpFilterPatterns fl
          = ((fl.map trimChars).filter (fun t => !t.isEmpty)).map filterPattern)
    ∧ (∀ t : List Char, ('*' ∈ t ∨ '?' ∈ t) → filterPattern t = t)
    ∧ (∀ t : List Char, ¬('*' ∈ t ∨ '?' ∈ t) → ('/' ∈ t ∨ '\\' ∈ t ∨ '.' ∈ t) →
        filterPattern t = lc "**/" ++ t)
    ∧ (∀ t : List Char, ¬('*' ∈ t ∨ '?' ∈ t) → ¬('/' ∈ t ∨ '\\' ∈ t ∨ '.' ∈ t) →
        filterPattern t = lc "**/" ++ t ++ lc ".*") := by
  refine ⟨rfl, ?_, ?_, ?_, ?_⟩
  · intro fl hfl
    have key : ∀ (l : List (List Char)) (acc : List (List Char)),
        l.foldl (fun acc f =>
          let t := trimChars f
          if t.isEmpty then acc else acc ++ [filterPattern t]) acc
        = acc ++ ((l.map trimChars).filter (fun t => !t.isEmpty)).map filterPattern := by
      intro l
      induction l with
      | nil => intro acc; simp
      | cons f rest ih =>
        intro acc
        rw [List.foldl_cons]
        by_cases ht : (trimChars f).isEmpty = true
        · have h1 : (let t := trimChars f
              if t.isEmpty then acc else acc ++ [filterPattern t]) = acc := by
            simp [ht]
          have h2 : (trimChars f :: List.map trimChars rest).filter (fun t => !t.isEmpty)
              = (List.map trimChars rest).filter (fun t => !t.isEmpty) := by
            simp [List.filter_cons, ht]
          rw [h1, ih acc, List.map_cons, h2]
        · have ht2 : (trimChars f).isEmpty = false := by
            revert ht; cases (trimChars f).isEmpty <;> simp
          have h1 : (let t := trimChars f
              if t.isEmpty then acc else acc ++ [filterPattern t])
              = acc ++ [filterPattern (trimChars f)] := by
            simp [ht2]
          have h2 : (trimChars f :: List.map trimChars rest).filter (fun t => !t.isEmpty)
              = trimChars f :: (List.map trimChars rest).filter (fun t => !t.isEmpty) := by
            simp [List.filter_cons, ht2]
          rw [h1, ih (acc ++ [filterPattern (trimChars f)]), List.map_cons, h2, List.map_cons]
          simp
    have hne : fl.isEmpty = false := by
      cases fl with
      | nil => exact absurd rfl hfl
      | cons a b => rfl
    simp only [bumpFilterPatterns, hne, Bool.false_eq_true, if_false]
    simpa using key fl []
  · intro t ht
    rcases ht with h | h <;> simp [filterPattern, h]
  · intro t ht hd
    by_cases hs : '/' ∈ t ∨ '\\' ∈ t
    · simp [filterPattern, ht, hs]
    · have hdot : '.' ∈ t := by tauto
      simp [filterPattern, ht, hs, hdot]
  · intro t ht hd
    simp only [not_or] at ht hd
    simp [filterPattern, ht.1, ht.2, hd.1, hd.2.1, hd.2.2]

/-- Witness for C9 on a concrete filter list exercising every branch. -/
theorem c9_filter_to_glob_translation_witness :
    bumpFilterPatterns [lc " src/cli.ts ", lc "", lc "*.json", lc "name", lc "a.b"]
      = [lc "**/src/cli.ts", lc "*.json", lc "**/name.*", lc "**/a.b"] := by
  have h := c9_filter_to_glob_translation.2.1
    [lc " src/cli.ts ", lc "", lc "*.json", lc "name", lc "a.b"] (by simp [lc])
  rw [h]
  decide

/-- C10: in manual mode a truthy bumpSet takes precedence: it is returned
when valid and raises the invalid-bumpSet error when not, independently of
the custom version; the custom version is consulted only when bumpSet is
absent (undefined or empty), and with both absent the missing-target error
is raised. -/
theorem c10_manual_bumpset_precedence :
    (∀ current cv bs, bs ≠ [] → isValidSemver bs = true →
      calculateNewVersion current .manual cv (some bs) = .ok bs)
    ∧ (∀ current cv bs, bs ≠ [] → isValidSemver bs = false →
      calculateNewVersion current .manual cv (some bs)
        = .error (lc "invalid bumpSet version: " ++ bs))
    ∧ (∀ current cv cv2 bs, bs ≠ [] →
      calculateNewVersion current .manual cv (some bs)
        = calculateNewVersion current .manual cv2 (some bs))
    ∧ (∀ current bsOpt cvOpt, manualAbsent bsOpt → manualAbsent cvOpt →
      calculateNewVersion current .manual cvOpt bsOpt = .error missingTargetMsg)
    ∧ (∀ current bsOpt cv, manualAbsent bsOpt → cv ≠ [] → isValidSemver cv = true →
      calculateNewVersion current .manual (some cv) bsOpt = .ok cv)
    ∧ (∀ current bsOpt cv, manualAbsent bsOpt → cv ≠ [] → isValidSemver cv = false →
      calculateNewVersion current .manual (some cv) bsOpt
        = .error (lc "invalid custom version: " ++ cv)) := by
  have hne : ∀ (bs : List Char), bs ≠ [] → bs.isEmpty = false := by
    intro bs h; cases bs with | nil => exact absurd rfl h | cons a b => rfl
  refine ⟨?_, ?_, ?_, ?_, ?_, ?_⟩
  · intro current cv bs hbs hv
    simp [calculateNewVersion, hne bs hbs, hv]
  · intro current cv bs hbs hv
    simp [calculateNewVersion, hne bs hbs, hv]
  · intro current cv cv2 bs hbs
    by_cases hv : isValidSemver bs = true
    · simp [calculateNewVersion, hne bs hbs, hv]
    · have hv2 : isValidSemver bs = false := by
        revert hv; cases isValidSemver bs <;> simp
      simp [calculateNewVersion, hne bs hbs, hv2]
  · intro current bsOpt cvOpt hb hc
    have hcv : manualFromCustom cvOpt = .error missingTargetMsg := by
      rcases hc with h | h <;> subst h <;> simp [manualFromCustom]
    rcases hb with h | h <;> subst h <;> simp [calculateNewVersion, hcv]
  · intro current bsOpt cv hb hcv hv
    have hres : manualFromCustom (some cv) = .ok cv := by
      simp [manualFromCustom, hne cv hcv, hv]
    rcases hb with h | h <;> subst h <;> simp [calculateNewVersion, hres]
  · intro current bsOpt cv hb hcv hv
    have hres : manualFromCustom (some cv) = .error (lc "invalid custom version: " ++ cv) := by
      simp [manualFromCustom, hne cv hcv, hv]
    rcases hb with h | h <;> subst h <;> simp [calculateNewVersion, hres]

/-- Witness for C10 at concrete versions: a valid bumpSet wins over a
conflicting custom version, and absent targets raise the missing error. -/
theorem c10_manual_bumpset_precedence_witness :
    calculateNewVersion (lc "1.0.0") .manual (some (lc "9.9.9")) (some (lc "2.0.0"))
      = .ok (lc "2.0.0")
    ∧ calculateNewVersion (lc "1.0.0") .manual (some (lc "9.9.9")) (some (lc "abc"))
      = .error (lc "invalid bumpSet version: " ++ lc "abc")
    ∧ calculateNewVersion (lc "1.0.0") .manual none none = .error missingTargetMsg := by
  refine ⟨c10_manual_bumpset_precedence.1 (lc "1.0.0") (some (lc "9.9.9")) (lc "2.0.0")
      (by decide) (by decide),
    c10_manual_bumpset_precedence.2.1 (lc "1.0.0") (some (lc "9.9.9")) (lc "abc")
      (by decide) (by decide),
    c10_manual_bumpset_precedence.2.2.2.1 (lc "1.0.0") none none (Or.inl rfl) (Or.inl rfl)⟩

/-! Correctness of the decimal rendering and the release-version parser. -/

theorem charDigitVal_digitChar (k : Nat) (hk : k < 10) : charDigitVal (digitChar k) = k := by
  interval_cases k <;> decide

theorem isDigit_digitChar (k : Nat) (hk : k < 10) : (digitChar k).isDigit = true := by
  interval_cases k <;> decide

theorem parseNatVal_append_digit (xs : List Char) (c : Char) :
    parseNatVal (xs ++ [c]) = 10 * parseNatVal xs + charDigitVal c := by
  simp [parseNatVal, List.foldl_append]

theorem renderNatAux_spec (fuel : Nat) :
    ∀ n ≤ fuel, renderNatAux fuel n ≠ []
      ∧ (∀ c ∈ renderNatAux fuel n, c.isDigit = true)
      ∧ parseNatVal (renderNatAux fuel n) = n := by
  induction fuel with
  | zero =>
    intro n hn
    have hn0 : n = 0 := by omega
    subst hn0
    refine ⟨by simp [renderNatAux], ?_, by decide⟩
    intro c hc
    simp [renderNatAux] at hc
    subst hc
    decide
  | succ fuel ih =>
    intro n hn
    by_cases h10 : n < 10
    · refine ⟨by simp [renderNatAux, h10], ?_, ?_⟩
      · intro c hc
        simp [renderNatAux, h10] at hc
        subst hc
        exact isDigit_digitChar n h10
      · simp only [renderNatAux, h10, if_true]
        simpa [parseNatVal] using charDigitVal_digitChar n h10
    · have hdiv : n / 10 ≤ fuel := by
        have h1 : 0 < n := by omega
        have h2 : n / 10 < n := Nat.div_lt_self h1 (by norm_num)
        omega
      obtain ⟨h1, h2, h3⟩ := ih (n / 10) hdiv
      simp only [renderNatAux, h10, if_false]
      refine ⟨by simp, ?_, ?_⟩
      · intro c hc
        rcases List.mem_append.mp hc with hc1 | hc2
        · exact h2 c hc1
        · simp at hc2
          subst hc2
          exact isDigit_digitChar (n % 10) (Nat.mod_lt n (by norm_num))
      · rw [parseNatVal_append_digit, h3,
          charDigitVal_digitChar (n % 10) (Nat.mod_lt n (by norm_num))]
        omega

theorem renderNat_ne_nil (n : Nat) : renderNat n ≠ [] :=
  (renderNatAux_spec n n (le_refl n)).1

theorem renderNat_digits (n : Nat) : ∀ c ∈ renderNat n, c.isDigit = true :=
  (renderNatAux_spec n n (le_refl n)).2.1

theorem parseNatVal_renderNat (n : Nat) : parseNatVal (renderNat n) = n :=
  (renderNatAux_spec n n (le_refl n)).2.2

theorem parseNatDigits_renderNat (n : Nat) : parseNatDigits (renderNat n) = some n := by
  have h1 : (renderNat n).isEmpty = false := by
    cases hr : renderNat n with
    | nil => exact absurd hr (renderNat_ne_nil n)
    | cons a b => rfl
  have h2 : (renderNat n).all Char.isDigit = true :=
    List.all_eq_true.mpr (fun c hc => renderNat_digits n c hc)
  simp [parseNatDigits, h1, h2, parseNatVal_renderNat]

theorem isDigit_ne_dot (c : Char) (h : c.isDigit = true) : (c == '.') = false := by
  cases he : c == '.' with
  | false => rfl
  | true =>
    have : c = '.' := by
      have := (beq_iff_eq (a := c) (b := '.')).mp he
      exact this
    subst this
    simp at h

theorem splitDot_no_dot (x : List Char) (h : ∀ c ∈ x, (c == '.') = false) :
    splitDot x = [x] := by
  induction x with
  | nil => rfl
  | cons c t ih =>
    have hc := h c (by simp)
    have ht := ih (fun a ha => h a (by simp [ha]))
    simp [splitDot, hc, ht]

theorem splitDot_append_dot (x y : List Char) (h : ∀ c ∈ x, (c == '.') = false) :
    splitDot (x ++ '.' :: y) = x :: splitDot y := by
  induction x with
  | nil => simp [splitDot]
  | cons c t ih =>
    have hc := h c (by simp)
    have ht := ih (fun a ha => h a (by simp [ha]))
    simp [splitDot, hc, ht]

theorem parse3_render3 (t : Nat × Nat × Nat) : parse3 (render3 t) = some t := by
  obtain ⟨a, b, c⟩ := t
  have hda : ∀ ch ∈ renderNat a, (ch == '.') = false :=
    fun ch hch => isDigit_ne_dot ch (renderNat_digits a ch hch)
  have hdb : ∀ ch ∈ renderNat b, (ch == '.') = false :=
    fun ch hch => isDigit_ne_dot ch (renderNat_digits b ch hch)
  have hdc : ∀ ch ∈ renderNat c, (ch == '.') = false :=
    fun ch hch => isDigit_ne_dot ch (renderNat_digits c ch hch)
  have hsplit : splitDot (renderNat a ++ ('.' :: (renderNat b ++ '.' :: renderNat c)))
      = [renderNat a, renderNat b, renderNat c] := by
    rw [splitDot_append_dot _ _ hda, splitDot_append_dot _ _ hdb, splitDot_no_dot _ hdc]
  simp [parse3, render3, hsplit, parseNatDigits_renderNat]

/-! Comparison lemmas. -/

theorem cmpT_eq_lt_iff (a b : Nat × Nat × Nat) : cmpT a b = .lt ↔ lexLt a b := by
  obtain ⟨a1, a2, a3⟩ := a
  obtain ⟨b1, b2, b3⟩ := b
  simp only [cmpT, lexLt]
  split_ifs <;> simp_all <;> omega

theorem cmpT_eq_gt_iff (a b : Nat × Nat × Nat) : cmpT a b = .gt ↔ lexLt b a := by
  obtain ⟨a1, a2, a3⟩ := a
  obtain ⟨b1, b2, b3⟩ := b
  simp only [cmpT, lexLt]
  split_ifs <;> simp_all <;> omega

theorem cmpT_self (a : Nat × Nat × Nat) : cmpT a a = .eq := by
  obtain ⟨a1, a2, a3⟩ := a
  simp only [cmpT]
  split_ifs <;> first | rfl | omega

/-- C5: for a valid version and the patch, minor or major mode, the bump
computation succeeds with a version whose named component is raised by one,
whose lower-order components are reset to zero, whose other components are
untouched, and which is strictly greater under semver comparison. -/
theorem c5_increment_components (cur : List Char) (t : Nat × Nat × Nat) (mode : BumpMode)
    (hparse : parse3 cur = some t)
    (hmode : mode = .patch ∨ mode = .minor ∨ mode = .major) :
    ∃ out, calculateNewVersion cur mode none none = .ok out
      ∧ parse3 out = some (incTriple mode t)
      ∧ (mode = .patch → incTriple mode t = (t.1, t.2.1, t.2.2 + 1))
      ∧ (mode = .minor → incTriple mode t = (t.1, t.2.1 + 1, 0))
      ∧ (mode = .major → incTriple mode t = (t.1 + 1, 0, 0))
      ∧ compareVersions cur out = .ok (-1) := by
  refine ⟨render3 (incTriple mode t), ?_, parse3_render3 _, ?_, ?_, ?_, ?_⟩
  · rcases hmode with h | h | h <;> subst h <;>
      simp [calculateNewVersion, semverInc, hparse]
  · intro h; subst h; obtain ⟨a, b, c⟩ := t; rfl
  · intro h; subst h; obtain ⟨a, b, c⟩ := t; rfl
  · intro h; subst h; obtain ⟨a, b, c⟩ := t; rfl
  · have hlt : cmpT t (incTriple mode t) = .lt := by
      rw [cmpT_eq_lt_iff]
      obtain ⟨a, b, c⟩ := t
      rcases hmode with h | h | h <;> subst h <;> simp [incTriple, lexLt]
    simp [compareVersions, hparse, parse3_render3, hlt]

/-- Witness for C5 at the concrete version 1.2.3 in patch mode. -/
theorem c5_increment_components_witness :
    parse3 (lc "1.2.3") = some (1, 2, 3)
    ∧ ∃ out, calculateNewVersion (lc "1.2.3") .patch none none = .ok out
      ∧ parse3 out = some (incTriple .patch (1, 2, 3))
      ∧ (BumpMode.patch = .patch → incTriple .patch (1, 2, 3) = (1, 2, 3 + 1))
      ∧ (BumpMode.patch = .minor → incTriple .patch (1, 2, 3) = (1, 2 + 1, 0))
      ∧ (BumpMode.patch = .major → incTriple .patch (1, 2, 3) = (1 + 1, 0, 0))
      ∧ compareVersions (lc "1.2.3") out = .ok (-1) :=
  ⟨by decide, c5_increment_components (lc "1.2.3") (1, 2, 3) .patch (by decide) (Or.inl rfl)⟩

/-! The greatest-valid-version computation. -/

theorem maxStar_go (rest : List (List Char)) :
    ∀ (m0 : List Char) (t0 : Nat × Nat × Nat), parse3 m0 = some t0 →
    (∀ u ∈ rest, isValidSemver u = true) →
    ∃ m tm, rest.foldl (fun acc v =>
        match acc with
        | none => some v
        | some m => if laterIsGreater m v then some v else some m) (some m0) = some m
      ∧ parse3 m = some tm
      ∧ (m = m0 ∨ m ∈ rest)
      ∧ cmpT t0 tm ≠ .gt
      ∧ ∀ u ∈ rest, ∀ tu, parse3 u = some tu → cmpT tu tm ≠ .gt := by
  induction rest with
  | nil =>
    intro m0 t0 h0 _
    refine ⟨m0, t0, rfl, h0, Or.inl rfl, ?_, ?_⟩
    · rw [cmpT_self]
      intro hx
      cases hx
    · intro u hu
      simp at hu
  | cons v rest ih =>
    intro m0 t0 h0 hall
    have hv : isValidSemver v = true := hall v (by simp)
    obtain ⟨tv, htv⟩ : ∃ tv, parse3 v = some tv := by
      cases hp : parse3 v with
      | none => simp [isValidSemver, hp] at hv
      | some x => exact ⟨x, rfl⟩
    have hrest : ∀ u ∈ rest, isValidSemver u = true := fun u hu => hall u (by simp [hu])
    have hstep : ∀ (b : Bool), laterIsGreater m0 v = b →
        (v :: rest).foldl (fun acc v =>
          match acc with
          | none => some v
          | some m => if laterIsGreater m v then some v else some m) (some m0)
        = rest.foldl (fun acc v =>
          match acc with
          | none => some v
          | some m => if laterIsGreater m v then some v else some m)
          (if b then some v else some m0) := by
      intro b hb
      rw [List.foldl_cons]
      cases b with
      | true => simp [hb]
      | false => simp [hb]
    by_cases hgt : laterIsGreater m0 v = true
    · have hlt : cmpT t0 tv = .lt := by
        simp only [laterIsGreater, h0, htv] at hgt
        cases hcmp : cmpT t0 tv with
        | lt => rfl
        | eq => rw [hcmp] at hgt; exact absurd hgt (by decide)
        | gt => rw [hcmp] at hgt; exact absurd hgt (by decide)
      obtain ⟨m, tm, hfold, hpm, hmem, hcv, hu⟩ := ih v tv htv hrest
      refine ⟨m, tm, ?_, hpm, ?_, ?_, ?_⟩
      · rw [hstep true hgt]
        simpa using hfold
      · rcases hmem with h | h
        · exact Or.inr (by simp [h])
        · exact Or.inr (by simp [h])
      · intro hc
        rw [cmpT_eq_gt_iff] at hc
        rw [cmpT_eq_lt_iff] at hlt
        have hvle : ¬ lexLt tm tv := fun hx => hcv (by rwa [cmpT_eq_gt_iff])
        refine hvle ?_
        obtain ⟨x1, x2, x3⟩ := t0
        obtain ⟨y1, y2, y3⟩ := tv
        obtain ⟨z1, z2, z3⟩ := tm
        simp only [lexLt] at hc hlt ⊢
        omega
      · intro u hu2 tu hpu
        rcases List.mem_cons.mp hu2 with h | h
        · have heq : tu = tv := by
            rw [h] at hpu
            rw [hpu] at htv
            exact Option.some_inj.mp htv
          rw [heq]
          exact hcv
        · exact hu u h tu hpu
    · have hngt : laterIsGreater m0 v = false := by
        revert hgt
        cases laterIsGreater m0 v <;> simp
      have hnlt : cmpT t0 tv ≠ .lt := by
        simp only [laterIsGreater, h0, htv] at hngt
        intro hx
        rw [hx] at hngt
        exact absurd hngt (by decide)
      obtain ⟨m, tm, hfold, hpm, hmem, hcv, hu⟩ := ih m0 t0 h0 hrest
      refine ⟨m, tm, ?_, hpm, ?_, hcv, ?_⟩
      · rw [hstep false hngt]
        simpa using hfold
      · rcases hmem with h | h
        · exact Or.inl h
        · exact Or.inr (by simp [h])
      · intro u hu2 tu hpu
        rcases List.mem_cons.mp hu2 with h | h
        · have heq : tu = tv := by
            rw [h] at hpu
            rw [hpu] at htv
            exact Option.some_inj.mp htv
          rw [heq]
          intro hc
          rw [cmpT_eq_gt_iff] at hc
          have h1 : ¬ lexLt t0 tv := fun hx => hnlt (by rwa [cmpT_eq_lt_iff])
          have h2 : ¬ lexLt tm t0 := fun hx => hcv (by rwa [cmpT_eq_gt_iff])
          obtain ⟨x1, x2, x3⟩ := t0
          obtain ⟨y1, y2, y3⟩ := tv
          obtain ⟨z1, z2, z3⟩ := tm
          simp only [lexLt] at hc h1 h2
          omega
        · exact hu u h tu hpu

/-- C6: getLatestVersion is null exactly when no input entry is a valid
version, and otherwise returns a member of the input that is valid and
maximal under semver comparison. -/
theorem c6_get_latest_version_spec (l : List (List Char)) :
    (getLatestVersion l = none ↔ ∀ v ∈ l, isValidSemver v = false)
    ∧ (∀ m, getLatestVersion l = some m →
        m ∈ l ∧ isValidSemver m = true
        ∧ ∀ u ∈ l, isValidSemver u = true →
            ∃ k, compareVersions u m = .ok k ∧ k ≤ 0) := by
  have hfilter : ∀ u ∈ l.filter isValidSemver, isValidSemver u = true :=
    fun u hu => (List.mem_filter.mp hu).2
  constructor
  · constructor
    · intro h v hv
      cases hval : isValidSemver v with
      | false => rfl
      | true =>
        exfalso
        have hvmem : v ∈ l.filter isValidSemver := List.mem_filter.mpr ⟨hv, hval⟩
        cases hf : l.filter isValidSemver with
        | nil => rw [hf] at hvmem; simp at hvmem
        | cons v0 vrest =>
          obtain ⟨tv0, htv0⟩ : ∃ x, parse3 v0 = some x := by
            have := hfilter v0 (by rw [hf]; simp)
            cases hp : parse3 v0 with
            | none => simp [isValidSemver, hp] at this
            | some x => exact ⟨x, rfl⟩
          obtain ⟨m, tm, hfold, _, _, _, _⟩ := maxStar_go vrest v0 tv0 htv0
            (fun u hu => hfilter u (by rw [hf]; simp [hu]))
          rw [getLatestVersion] at h
          simp only [hf] at h
          have hne : (v0 :: vrest).isEmpty = false := rfl
          rw [hne] at h
          simp only [Bool.false_eq_true, if_false, maxSatisfyingStar] at h
          rw [List.foldl_cons] at h
          have : (v0 :: vrest).foldl (fun acc v =>
              match acc with
              | none => some v
              | some m => if laterIsGreater m v then some v else some m) none = some m := by
            rw [List.foldl_cons]
            exact hfold
          rw [List.foldl_cons] at this
          rw [this] at h
          simp at h
    · intro h
      have hf : l.filter isValidSemver = [] := by
        apply List.filter_eq_nil.mpr
        intro a ha
        simp [h a ha]
      simp [getLatestVersion, hf]
  · intro mres hm
    rw [getLatestVersion] at hm
    cases hf : l.filter isValidSemver with
    | nil =>
      rw [hf] at hm
      simp at hm
    | cons v0 vrest =>
      rw [hf] at hm
      have hne : (v0 :: vrest).isEmpty = false := rfl
      rw [hne] at hm
      simp only [Bool.false_eq_true, if_false, maxSatisfyingStar, List.foldl_cons] at hm
      obtain ⟨tv0, htv0⟩ : ∃ x, parse3 v0 = some x := by
        have := hfilter v0 (by rw [hf]; simp)
        cases hp : parse3 v0 with
        | none => simp [isValidSemver, hp] at this
        | some x => exact ⟨x, rfl⟩
      obtain ⟨m2, tm, hfold, hpm, hmem, hcv, hu⟩ := maxStar_go vrest v0 tv0 htv0
        (fun u hu => hfilter u (by rw [hf]; simp [hu]))
      have hm2 : m2 = mres := by
        rw [hfold] at hm
        exact (Option.some_inj.mp hm)
      subst hm2
      have hmemf : m2 ∈ l.filter isValidSemver := by
        rw [hf]
        rcases hmem with h | h
        · simp [h]
        · simp [h]
      refine ⟨(List.mem_filter.mp hmemf).1, (List.mem_filter.mp hmemf).2, ?_⟩
      intro u hul huv
      obtain ⟨tu, htu⟩ : ∃ x, parse3 u = some x := by
        cases hp : parse3 u with
        | none => simp [isValidSemver, hp] at huv
        | some x => exact ⟨x, rfl⟩
      have humem : u ∈ l.filter isValidSemver := List.mem_filter.mpr ⟨hul, huv⟩
      have hne2 : cmpT tu tm ≠ .gt := by
        rw [hf] at humem
        rcases List.mem_cons.mp humem with h | h
        · have heq : tu = tv0 := by
            rw [h] at htu
            rw [htu] at htv0
            exact Option.some_inj.mp htv0
          rw [heq]
          exact hcv
        · exact hu u h tu htu
      cases hc : cmpT tu tm with
      | lt => exact ⟨-1, by simp [compareVersions, htu, hpm, hc], by norm_num⟩
      | eq => exact ⟨0, by simp [compareVersions, htu, hpm, hc], by norm_num⟩
      | gt => exact absurd hc hne2

/-! Character facts of valid versions of the model: the characters of a
valid MAJOR.MINOR.PATCH string are digits and dots, hence never quotes,
equal signs, commas or whitespace. -/

theorem splitDot_ne_nil (s : List Char) : splitDot s ≠ [] := by
  induction s with
  | nil => simp [splitDot]
  | cons c t ih =>
    simp only [splitDot]
    by_cases hc : (c == '.') = true
    · simp [hc]
    · have hc2 : (c == '.') = false := by revert hc; cases c == '.' <;> simp
      simp only [hc2, Bool.false_eq_true, if_false]
      cases hs : splitDot t with
      | nil => simp
      | cons h r => simp

theorem joinParts_splitDot (s : List Char) : joinParts (splitDot s) = s := by
  induction s with
  | nil => rfl
  | cons c t ih =>
    simp only [splitDot]
    by_cases hc : (c == '.') = true
    · have hc2 : c = '.' := by simpa using hc
      subst hc2
      simp only [hc, if_true]
      cases hs : splitDot t with
      | nil => exact absurd hs (splitDot_ne_nil t)
      | cons h r =>
        rw [hs] at ih
        have e1 : joinParts ([] :: h :: r) = '.' :: joinParts (h :: r) := rfl
        rw [e1, ih]
    · have hc2 : (c == '.') = false := by revert hc; cases c == '.' <;> simp
      simp only [hc2, Bool.false_eq_true, if_false]
      cases hs : splitDot t with
      | nil => exact absurd hs (splitDot_ne_nil t)
      | cons h r =>
        rw [hs] at ih
        cases r with
        | nil =>
          have e1 : joinParts [c :: h] = c :: h := rfl
          have e2 : joinParts [h] = h := rfl
          rw [e2] at ih
          rw [e1, ih]
        | cons r0 rr =>
          have e1 : joinParts ((c :: h) :: r0 :: rr)
              = (c :: h) ++ '.' :: joinParts (r0 :: rr) := rfl
          have e2 : joinParts (h :: r0 :: rr) = h ++ '.' :: joinParts (r0 :: rr) := rfl
          rw [e1, List.cons_append, ← e2, ih]

theorem parseNatDigits_all (s : List Char) (x : Nat) (h : parseNatDigits s = some x) :
    s ≠ [] ∧ ∀ a ∈ s, a.isDigit = true := by
  rw [parseNatDigits] at h
  by_cases hcond : (!s.isEmpty && s.all Char.isDigit) = true
  · obtain ⟨h1, h2⟩ := Bool.and_eq_true_iff.mp hcond
    refine ⟨?_, List.all_eq_true.mp h2⟩
    intro h0
    subst h0
    simp at h1
  · simp [hcond] at h

theorem semver_shape (v : List Char) (hv : isValidSemver v = true) :
    ∃ a b c, v = a ++ ('.' :: (b ++ ('.' :: c)))
      ∧ (a ≠ [] ∧ ∀ x ∈ a, x.isDigit = true)
      ∧ (b ≠ [] ∧ ∀ x ∈ b, x.isDigit = true)
      ∧ (c ≠ [] ∧ ∀ x ∈ c, x.isDigit = true) := by
  rw [isValidSemver] at hv
  cases hp : parse3 v with
  | none => rw [hp] at hv; cases hv
  | some t =>
    rw [parse3] at hp
    cases hsd : splitDot v with
    | nil => rw [hsd] at hp; simp at hp
    | cons a l2 =>
      cases l2 with
      | nil => rw [hsd] at hp; simp at hp
      | cons b l3 =>
        cases l3 with
        | nil => rw [hsd] at hp; simp at hp
        | cons c l4 =>
          cases l4 with
          | cons d l5 => rw [hsd] at hp; simp at hp
          | nil =>
            rw [hsd] at hp
            dsimp only at hp
            cases hpa : parseNatDigits a with
            | none => rw [hpa] at hp; simp at hp
            | some x =>
              cases hpb : parseNatDigits b with
              | none => rw [hpa, hpb] at hp; simp at hp
              | some y =>
                cases hpc : parseNatDigits c with
                | none => rw [hpa, hpb, hpc] at hp; simp at hp
                | some z =>
                  have hshape : v = a ++ ('.' :: (b ++ ('.' :: c))) := by
                    have hj := joinParts_splitDot v
                    rw [hsd] at hj
                    have e1 : joinParts [a, b, c]
                        = a ++ '.' :: (b ++ '.' :: c) := rfl
                    rw [e1] at hj
                    exact hj.symm
                  exact ⟨a, b, c, hshape, parseNatDigits_all a x hpa,
                    parseNatDigits_all b y hpb, parseNatDigits_all c z hpc⟩

theorem semver_char (v : List Char) (hv : isValidSemver v = true) :
    v ≠ [] ∧ ∀ a ∈ v, a.isDigit = true ∨ a = '.' := by
  obtain ⟨a, b, c, hs, ⟨ha1, ha2⟩, ⟨hb1, hb2⟩, ⟨hc1, hc2⟩⟩ := semver_shape v hv
  constructor
  · rw [hs]
    intro h0
    rcases List.append_eq_nil.mp h0 with ⟨_, h2⟩
    cases h2
  · intro x hx
    rw [hs] at hx
    rcases List.mem_append.mp hx with h2 | h2
    · exact Or.inl (ha2 x h2)
    · rcases List.mem_cons.mp h2 with h3 | h3
      · exact Or.inr h3
      · rcases List.mem_append.mp h3 with h4 | h4
        · exact Or.inl (hb2 x h4)
        · rcases List.mem_cons.mp h4 with h5 | h5
          · exact Or.inr h5
          · exact Or.inl (hc2 x h5)

theorem digit_dot_notDq (x : Char) (h : x.isDigit = true ∨ x = '.') :
    notDq x = true := by
  cases hn : notDq x with
  | true => rfl
  | false =>
    have he := notDq_false_eq x hn
    subst he
    rcases h with h2 | h2
    · exact absurd h2 (by decide)
    · exact absurd h2 (by decide)

theorem digit_dot_notQ (x : Char) (h : x.isDigit = true ∨ x = '.') :
    notQ x = true := by
  cases hn : notQ x with
  | true => rfl
  | false =>
    rcases isQuote_cases x (notQ_false_isQuote x hn) with he | he <;> subst he <;>
      rcases h with h2 | h2 <;> exact absurd h2 (by decide)

theorem digit_dot_ne (x y : Char) (h : x.isDigit = true ∨ x = '.')
    (hy : y.isDigit = false) (hy2 : ¬ y = '.') : x ≠ y := by
  intro he
  subst he
  rcases h with h2 | h2
  · rw [h2] at hy; cases hy
  · exact hy2 h2

/-- Bundle of the character facts of a valid version used by the regex
round-trip and idempotence arguments. -/
theorem semver_v_facts (v : List Char) (hv : isValidSemver v = true) :
    v ≠ [] ∧ (∀ a ∈ v, notDq a = true) ∧ (∀ a ∈ v, notQ a = true)
      ∧ (∀ a ∈ v, a ≠ '=') ∧ (∀ a ∈ v, a ≠ ',') := by
  obtain ⟨hne, hch⟩ := semver_char v hv
  exact ⟨hne,
    fun a ha => digit_dot_notDq a (hch a ha),
    fun a ha => digit_dot_notQ a (hch a ha),
    fun a ha => digit_dot_ne a '=' (hch a ha) (by decide) (by decide),
    fun a ha => digit_dot_ne a ',' (hch a ha) (by decide) (by decide)⟩

/-! Main-path lemmas for the package.json rule: the shape of the replaced
content, the position and capture of its first match, and idempotence. -/

theorem pkjRender_decomp (v z : List Char) :
    pkjRender v ++ z
      = lc "\"version\"" ++ ([] ++ (':' :: ([' '] ++ ('"' :: (v ++ ('"' :: z)))))) := by
  rw [pkjRender, show lc "\"version\": \"" = lc "\"version\"" ++ [':', ' ', '"'] from by decide]
  simp

theorem pkjRender_take9 (v z : List Char) :
    (pkjRender v ++ z).take 9 = lc "\"version\"" := by
  rw [pkjRender_decomp]
  rw [show (9 : Nat) = (lc "\"version\"").length from by decide, List.take_left]

theorem pkjRender_length (v : List Char) : (pkjRender v).length = 13 + v.length := by
  rw [pkjRender]
  simp [show (lc "\"version\": \"").length = 12 from by decide]
  omega

theorem matchPkjAt_render (v z : List Char) (hv : v ≠ [])
    (hvq : ∀ a ∈ v, notDq a = true) :
    matchPkjAt (pkjRender v ++ z) = some (13 + v.length, v) := by
  rw [pkjRender_decomp]
  rw [matchPkjAt_structure [] [' '] v z (by simp) (by decide) hvq hv]
  have harith : 9 + ([] : List Char).length + 1 + ([' '] : List Char).length + 1
      + v.length + 1 = 13 + v.length := by
    simp
    omega
  rw [harith]

theorem firstMatch_pkj_lt (c : List Char) (i len : Nat) (cap : List Char)
    (hm : firstMatchFrom matchPkjAt c = some (i, len, cap)) : i < c.length := by
  have hmat := firstMatchFrom_some_matchAt matchPkjAt c i len cap hm
  have hdropne : c.drop i ≠ [] := by
    intro h0
    rw [h0, show matchPkjAt [] = none from by decide] at hmat
    cases hmat
  by_contra hcon
  exact hdropne (List.drop_eq_nil_iff.mpr (by omega))

theorem pkjUpdate_firstMatch (c v : List Char) (i len : Nat) (cap : List Char)
    (hm : firstMatchFrom matchPkjAt c = some (i, len, cap))
    (hv : v ≠ []) (hvq : ∀ a ∈ v, notDq a = true) :
    firstMatchFrom matchPkjAt (c.take i ++ (pkjRender v ++ c.drop (i + len)))
      = some (i, 13 + v.length, v) := by
  have hmat := firstMatchFrom_some_matchAt matchPkjAt c i len cap hm
  have hmin := firstMatchFrom_some_min matchPkjAt c i len cap hm
  have hlt : i < c.length := firstMatch_pkj_lt c i len cap hm
  have htl : (c.take i).length = i := by
    rw [List.length_take]
    omega
  have htx : (c.drop i).take 9 = lc "\"version\"" := by
    obtain ⟨w1, w2, rest, hsx, _, _, _, _, _⟩ :=
      matchPkjAt_some_structure (c.drop i) len cap hmat
    rw [hsx, show (9 : Nat) = (lc "\"version\"").length from by decide, List.take_left]
  apply firstMatchFrom_eq_some_of
  · rw [List.length_append, htl]
    omega
  · rw [List.drop_left' htl]
    exact matchPkjAt_render v (c.drop (i + len)) hv hvq
  · intro j hj
    have hcd : c.drop j = (c.take i).drop j ++ c.drop i := by
      conv_lhs => rw [← List.take_append_drop i c]
      rw [List.drop_append_eq_append_drop]
      have h0 : j - (c.take i).length = 0 := by
        rw [htl]
        omega
      rw [h0, List.drop_zero]
    have hud : (c.take i ++ (pkjRender v ++ c.drop (i + len))).drop j
        = (c.take i).drop j ++ (pkjRender v ++ c.drop (i + len)) := by
      rw [List.drop_append_eq_append_drop]
      have h0 : j - (c.take i).length = 0 := by
        rw [htl]
        omega
      rw [h0, List.drop_zero]
    have hPne : (c.take i).drop j ≠ [] := by
      have h0 : 0 < ((c.take i).drop j).length := by
        rw [List.length_drop, htl]
        omega
      intro h1
      rw [h1] at h0
      simp at h0
    have htrans := matchPkjAt_transfer ((c.take i).drop j) (c.drop i)
      (pkjRender v ++ c.drop (i + len)) hPne htx (pkjRender_take9 v _)
    have hold : (matchPkjAt ((c.take i).drop j ++ c.drop i)).isSome = false := by
      rw [← hcd, hmin j hj]
      rfl
    rw [hold] at htrans
    rw [hud]
    cases ho : matchPkjAt ((c.take i).drop j ++ (pkjRender v ++ c.drop (i + len))) with
    | none => rfl
    | some r =>
      rw [ho] at htrans
      cases htrans

theorem updatePkj_splice (c v : List Char) (i len : Nat) (cap : List Char)
    (hm : firstMatchFrom matchPkjAt c = some (i, len, cap)) :
    replaceFirst matchPkjAt (fun _ _ => pkjRender v) c
      = c.take i ++ (pkjRender v ++ c.drop (i + len)) := by
  rw [replaceFirst, hm]
  simp [List.append_assoc]

theorem updatePkj_idem (c v : List Char) (hv : v ≠ [])
    (hvq : ∀ a ∈ v, notDq a = true) :
    replaceFirst matchPkjAt (fun _ _ => pkjRender v)
        (replaceFirst matchPkjAt (fun _ _ => pkjRender v) c)
      = replaceFirst matchPkjAt (fun _ _ => pkjRender v) c := by
  cases hm : firstMatchFrom matchPkjAt c with
  | none =>
    have hid : replaceFirst matchPkjAt (fun _ _ => pkjRender v) c = c := by
      rw [replaceFirst, hm]
    rw [hid, replaceFirst, hm]
  | some r =>
    obtain ⟨i, len, cap⟩ := r
    have h1 := updatePkj_splice c v i len cap hm
    have h2 := pkjUpdate_firstMatch c v i len cap hm hv hvq
    have hlt : i < c.length := firstMatch_pkj_lt c i len cap hm
    have htl : (c.take i).length = i := by
      rw [List.length_take]
      omega
    rw [h1, replaceFirst, h2]
    dsimp only
    have hu1 : (c.take i ++ (pkjRender v ++ c.drop (i + len))).take i = c.take i :=
      List.take_left' htl
    have hassoc : c.take i ++ (pkjRender v ++ c.drop (i + len))
        = (c.take i ++ pkjRender v) ++ c.drop (i + len) := by
      rw [List.append_assoc]
    have hlen2 : (c.take i ++ pkjRender v).length = i + (13 + v.length) := by
      rw [List.length_append, htl, pkjRender_length]
    have hu2 : (c.take i ++ (pkjRender v ++ c.drop (i + len))).drop (i + (13 + v.length))
        = c.drop (i + len) := by
      rw [hassoc]
      exact List.drop_left' hlen2
    rw [hu1, hu2]
    simp [List.append_assoc]

/-! Main-path lemmas for the typescript rule, mirroring the package.json
ones: the decomposition of the replacement text, its region facts, the
first match of the updated content, and idempotence of the update. -/

theorem notQ_true_ne (a : Char) (h : notQ a = true) : a ≠ '"' ∧ a ≠ sqc := by
  rw [notQ, Bool.and_eq_true] at h
  exact ⟨by simpa using h.1, by simpa using h.2⟩

theorem lcVersion_notQ : ∀ a ∈ lc "version", notQ a = true := by decide

theorem tsRender_eq (m v : List Char) :
    tsRender m v
      = lc "version"
          ++ [if m.contains '=' then '=' else ':', ' ',
              if m.contains '"' then '"' else sqc]
          ++ v ++ [if m.contains '"' then '"' else sqc]
          ++ (if m.contains ',' then [','] else []) := rfl

theorem tsRender_decomp (m v z : List Char) :
    ∃ op d tail, (op = '=' ∨ op = ':') ∧ isQuoteChar d = true
      ∧ (tail = [] ∨ tail = [','])
      ∧ tsRender m v ++ z
        = lc "version" ++ ([] ++ (op :: ([' '] ++ (d :: (v ++ (d :: (tail ++ z))))))) := by
  refine ⟨if m.contains '=' then '=' else ':', if m.contains '"' then '"' else sqc,
    if m.contains ',' then [','] else [], ?_, ?_, ?_, ?_⟩
  · cases h : m.contains '=' <;> simp [h]
  · cases h : m.contains '"' <;> simp [h] <;> decide
  · cases h : m.contains ',' <;> simp [h]
  · rw [tsRender_eq]
    simp [List.append_assoc]

theorem tsRender_region (m v z : List Char) : tsRegion (tsRender m v ++ z) := by
  obtain ⟨op, d, tail, hop, hd, htail, heq⟩ := tsRender_decomp m v z
  constructor
  · rw [heq, show (7 : Nat) = (lc "version").length from by decide, List.take_left]
  · refine ⟨lc "version" ++ [op, ' '], d, v ++ (d :: (tail ++ z)), ?_, by simp, ?_, hd⟩
    · rw [heq]
      simp [List.append_assoc]
    · intro a ha
      rcases List.mem_append.mp ha with h1 | h1
      · exact lcVersion_notQ a h1
      · simp at h1
        rcases h1 with h2 | h2
        · rw [h2]
          exact sep_notQ op hop
        · rw [h2]
          decide

theorem matchTsAt_some_region (s : List Char) (len : Nat) (cap : List Char)
    (h : matchTsAt s = some (len, cap)) : tsRegion s := by
  rw [matchTs_eq_A] at h
  obtain ⟨w1, op, w2, q, q2, rest, hse, hw1, hop, hw2, hq, hq2, hcap, hne, hlen⟩ :=
    matchTsAAt_some_structure s len cap h
  constructor
  · rw [hse, show (7 : Nat) = (lc "version").length from by decide, List.take_left]
  · refine ⟨lc "version" ++ (w1 ++ (op :: w2)), q, cap ++ (q2 :: rest), ?_, by simp, ?_, hq⟩
    · rw [hse]
      simp [List.append_assoc]
    · intro a ha
      rcases List.mem_append.mp ha with h1 | h1
      · exact lcVersion_notQ a h1
      · rcases List.mem_append.mp h1 with h2 | h2
        · exact ws_notQ a (hw1 a h2)
        · rcases List.mem_cons.mp h2 with h3 | h3
          · rw [h3]
            exact sep_notQ op hop
          · exact ws_notQ a (hw2 a h3)

theorem matchTsAt_render (m v z : List Char) (hv : v ≠ [])
    (hvq : ∀ a ∈ v, notQ a = true) :
    matchTsAt (tsRender m v ++ z) = some (11 + v.length, v) := by
  obtain ⟨op, d, tail, hop, hd, htail, heq⟩ := tsRender_decomp m v z
  rw [matchTs_eq_A, heq]
  rw [matchTsAAt_structure [] [' '] v (tail ++ z) op d d (by simp)
    (by intro a ha; simp at ha; rw [ha]; decide) hop hd hd hvq hv]
  have harith : 7 + ([] : List Char).length + 1 + ([' '] : List Char).length + 1
      + v.length + 1 = 11 + v.length := by
    simp
    omega
  rw [harith]

theorem firstMatch_ts_lt (c : List Char) (i len : Nat) (cap : List Char)
    (hm : firstMatchFrom matchTsAt c = some (i, len, cap)) : i < c.length := by
  have hmat := firstMatchFrom_some_matchAt matchTsAt c i len cap hm
  have hdropne : c.drop i ≠ [] := by
    intro h0
    rw [h0, show matchTsAt [] = none from by decide] at hmat
    cases hmat
  by_contra hcon
  exact hdropne (List.drop_eq_nil_iff.mpr (by omega))

theorem tsUpdate_firstMatch (c m v : List Char) (i len : Nat) (cap : List Char)
    (hm : firstMatchFrom matchTsAt c = some (i, len, cap))
    (hv : v ≠ []) (hvq : ∀ a ∈ v, notQ a = true) :
    firstMatchFrom matchTsAt (c.take i ++ (tsRender m v ++ c.drop (i + len)))
      = some (i, 11 + v.length, v) := by
  have hmat := firstMatchFrom_some_matchAt matchTsAt c i len cap hm
  have hmin := firstMatchFrom_some_min matchTsAt c i len cap hm
  have hlt : i < c.length := firstMatch_ts_lt c i len cap hm
  have htl : (c.take i).length = i := by
    rw [List.length_take]
    omega
  have htx : tsRegion (c.drop i) := matchTsAt_some_region (c.drop i) len cap hmat
  apply firstMatchFrom_eq_some_of
  · rw [List.length_append, htl]
    omega
  · rw [List.drop_left' htl]
    exact matchTsAt_render m v (c.drop (i + len)) hv hvq
  · intro j hj
    have hcd : c.drop j = (c.take i).drop j ++ c.drop i := by
      conv_lhs => rw [← List.take_append_drop i c]
      rw [List.drop_append_eq_append_drop]
      have h0 : j - (c.take i).length = 0 := by
        rw [htl]
        omega
      rw [h0, List.drop_zero]
    have hud : (c.take i ++ (tsRender m v ++ c.drop (i + len))).drop j
        = (c.take i).drop j ++ (tsRender m v ++ c.drop (i + len)) := by
      rw [List.drop_append_eq_append_drop]
      have h0 : j - (c.take i).length = 0 := by
        rw [htl]
        omega
      rw [h0, List.drop_zero]
    have hPne : (c.take i).drop j ≠ [] := by
      have h0 : 0 < ((c.take i).drop j).length := by
        rw [List.length_drop, htl]
        omega
      intro h1
      rw [h1] at h0
      simp at h0
    have htrans := matchTsAt_transfer ((c.take i).drop j) (c.drop i)
      (tsRender m v ++ c.drop (i + len)) hPne htx (tsRender_region m v _)
    have hold : (matchTsAt ((c.take i).drop j ++ c.drop i)).isSome = false := by
      rw [← hcd, hmin j hj]
      rfl
    rw [hold] at htrans
    rw [hud]
    cases ho : matchTsAt ((c.take i).drop j ++ (tsRender m v ++ c.drop (i + len))) with
    | none => rfl
    | some r =>
      rw [ho] at htrans
      cases htrans

theorem updateTs_splice (c v : List Char) (i len : Nat) (cap : List Char)
    (hm : firstMatchFrom matchTsAt c = some (i, len, cap)) :
    replaceFirst matchTsAt (fun matched _ => tsRender matched v) c
      = c.take i ++ (tsRender ((c.drop i).take len) v ++ c.drop (i + len)) := by
  rw [replaceFirst, hm]
  dsimp only
  simp [List.append_assoc]

theorem core_not_contains (op d : Char) (v : List Char) (x : Char)
    (h1 : x ∉ lc "version") (h2 : x ≠ op) (h3 : x ≠ ' ') (h4 : x ≠ d)
    (h5 : ∀ a ∈ v, a ≠ x) :
    (lc "version" ++ (op :: (' ' :: (d :: (v ++ [d]))))).contains x = false := by
  cases hcc : (lc "version" ++ (op :: (' ' :: (d :: (v ++ [d]))))).contains x with
  | false => rfl
  | true =>
    exfalso
    have hm := (contains_true_iff _ x).mp hcc
    rcases List.mem_append.mp hm with h | h
    · exact h1 h
    · rcases List.mem_cons.mp h with h | h
      · exact h2 h
      · rcases List.mem_cons.mp h with h | h
        · exact h3 h
        · rcases List.mem_cons.mp h with h | h
          · exact h4 h
          · rcases List.mem_append.mp h with h | h
            · exact (h5 x h) rfl
            · exact h4 (List.mem_singleton.mp h)

theorem core_contains_d (op d : Char) (v : List Char) :
    (lc "version" ++ (op :: (' ' :: (d :: (v ++ [d]))))).contains d = true := by
  rw [contains_true_iff]
  simp

theorem core_contains_op (op d : Char) (v : List Char) :
    (lc "version" ++ (op :: (' ' :: (d :: (v ++ [d]))))).contains op = true := by
  rw [contains_true_iff]
  simp

theorem tsRender_core_fixed (op d : Char) (v : List Char)
    (hop : op = '=' ∨ op = ':') (hd : isQuoteChar d = true)
    (hvq : ∀ a ∈ v, notQ a = true) (hveq : ∀ a ∈ v, a ≠ '=') (hvc : ∀ a ∈ v, a ≠ ',') :
    tsRender (lc "version" ++ (op :: (' ' :: (d :: (v ++ [d]))))) v
      = lc "version" ++ (op :: (' ' :: (d :: (v ++ [d])))) := by
  have hvne : ∀ a ∈ v, a ≠ '"' ∧ a ≠ sqc := fun a ha => notQ_true_ne a (hvq a ha)
  have hnc : (lc "version" ++ (op :: (' ' :: (d :: (v ++ [d]))))).contains ',' = false := by
    apply core_not_contains
    · decide
    · rcases hop with h | h <;> rw [h] <;> decide
    · decide
    · rcases isQuote_cases d hd with h | h <;> rw [h] <;> decide
    · exact hvc
  rcases isQuote_cases d hd with hD | hD <;> rcases hop with hO | hO <;>
      subst hD <;> subst hO
  · have h1 := core_contains_d '=' '"' v
    have h2 := core_contains_op '=' '"' v
    rw [tsRender_eq, h1, h2, hnc]
    simp [List.append_assoc]
  · have h1 := core_contains_d ':' '"' v
    have h2 : (lc "version" ++ (':' :: (' ' :: ('"' :: (v ++ ['"']))))).contains '='
        = false := by
      apply core_not_contains
      · decide
      · decide
      · decide
      · decide
      · exact hveq
    rw [tsRender_eq, h1, h2, hnc]
    simp [List.append_assoc]
  · have h1 : (lc "version" ++ ('=' :: (' ' :: (sqc :: (v ++ [sqc]))))).contains '"'
        = false := by
      apply core_not_contains
      · decide
      · decide
      · decide
      · decide
      · intro a ha
        exact (hvne a ha).1
    have h2 := core_contains_op '=' sqc v
    rw [tsRender_eq, h1, h2, hnc]
    simp [List.append_assoc]
  · have h1 : (lc "version" ++ (':' :: (' ' :: (sqc :: (v ++ [sqc]))))).contains '"'
        = false := by
      apply core_not_contains
      · decide
      · decide
      · decide
      · decide
      · intro a ha
        exact (hvne a ha).1
    have h2 : (lc "version" ++ (':' :: (' ' :: (sqc :: (v ++ [sqc]))))).contains '='
        = false := by
      apply core_not_contains
      · decide
      · decide
      · decide
      · decide
      · exact hveq
    rw [tsRender_eq, h1, h2, hnc]
    simp [List.append_assoc]

theorem updateTs_idem (c v : List Char) (hv : v ≠ [])
    (hvq : ∀ a ∈ v, notQ a = true) (hveq : ∀ a ∈ v, a ≠ '=')
    (hvc : ∀ a ∈ v, a ≠ ',') :
    replaceFirst matchTsAt (fun matched _ => tsRender matched v)
        (replaceFirst matchTsAt (fun matched _ => tsRender matched v) c)
      = replaceFirst matchTsAt (fun matched _ => tsRender matched v) c := by
  cases hm : firstMatchFrom matchTsAt c with
  | none =>
    have hid : replaceFirst matchTsAt (fun matched _ => tsRender matched v) c = c := by
      rw [replaceFirst, hm]
    rw [hid, replaceFirst, hm]
  | some r =>
    obtain ⟨i, len, cap⟩ := r
    have h1 := updateTs_splice c v i len cap hm
    have h2 := tsUpdate_firstMatch c ((c.drop i).take len) v i len cap hm hv hvq
    have hlt : i < c.length := firstMatch_ts_lt c i len cap hm
    have htl : (c.take i).length = i := by
      rw [List.length_take]
      omega
    obtain ⟨op, d, tail, hop, hd, htail, heq⟩ :=
      tsRender_decomp ((c.drop i).take len) v (c.drop (i + len))
    have hcz : tsRender ((c.drop i).take len) v ++ c.drop (i + len)
        = (lc "version" ++ (op :: (' ' :: (d :: (v ++ [d])))))
            ++ (tail ++ c.drop (i + len)) := by
      rw [heq]
      simp [List.append_assoc]
    have hcorelen : (lc "version" ++ (op :: (' ' :: (d :: (v ++ [d]))))).length
        = 11 + v.length := by
      simp [show (lc "version").length = 7 from by decide]
      omega
    rw [h1, replaceFirst, h2]
    dsimp only
    have htake : (c.take i ++ (tsRender ((c.drop i).take len) v
        ++ c.drop (i + len))).take i = c.take i := List.take_left' htl
    have hdropi : (c.take i ++ (tsRender ((c.drop i).take len) v
        ++ c.drop (i + len))).drop i
        = tsRender ((c.drop i).take len) v ++ c.drop (i + len) := List.drop_left' htl
    have hM2 : ((c.take i ++ (tsRender ((c.drop i).take len) v
        ++ c.drop (i + len))).drop i).take (11 + v.length)
        = lc "version" ++ (op :: (' ' :: (d :: (v ++ [d])))) := by
      rw [hdropi, hcz]
      exact List.take_left' hcorelen
    have hdrop2 : (c.take i ++ (tsRender ((c.drop i).take len) v
        ++ c.drop (i + len))).drop (i + (11 + v.length))
        = tail ++ c.drop (i + len) := by
      have hform : c.take i ++ (tsRender ((c.drop i).take len) v ++ c.drop (i + len))
          = (c.take i ++ (lc "version" ++ (op :: (' ' :: (d :: (v ++ [d]))))))
              ++ (tail ++ c.drop (i + len)) := by
        rw [hcz]
        simp [List.append_assoc]
      rw [hform]
      exact List.drop_left' (by rw [List.length_append, htl, hcorelen])
    rw [htake, hM2, hdrop2]
    rw [tsRender_core_fixed op d v hop hd hvq hveq hvc]
    rw [hcz]
    simp [List.append_assoc]

/-- C7: round trip — for content with a recognised version declaration for
its file type and a valid new version (quote-free by validity), extracting
the version from the updated content returns exactly the new version. -/
theorem c7_round_trip_extract_update (c v : List Char) (ft : FileType)
    (hft : ft ≠ FileType.unknown) (hex : (extractVersion c ft).isSome = true)
    (hv : isValidSemver v = true) :
    ∃ u, updateVersionInContent c v ft = some u ∧ extractVersion u ft = some v := by
  obtain ⟨hvne, hvdq, hvq, hveq, hvc⟩ := semver_v_facts v hv
  cases ft with
  | unknown => exact absurd rfl hft
  | packageJson =>
    cases hm : firstMatchFrom matchPkjAt c with
    | none =>
      rw [extractVersion, hm] at hex
      simp at hex
    | some r =>
      obtain ⟨i, len, cap⟩ := r
      refine ⟨replaceFirst matchPkjAt (fun _ _ => pkjRender v) c, rfl, ?_⟩
      rw [updatePkj_splice c v i len cap hm, extractVersion,
        pkjUpdate_firstMatch c v i len cap hm hvne hvdq]
      rfl
  | typescript =>
    cases hm : firstMatchFrom matchTsAt c with
    | none =>
      rw [extractVersion, hm] at hex
      simp at hex
    | some r =>
      obtain ⟨i, len, cap⟩ := r
      refine ⟨replaceFirst matchTsAt (fun matched _ => tsRender matched v) c, rfl, ?_⟩
      rw [updateTs_splice c v i len cap hm, extractVersion,
        tsUpdate_firstMatch c ((c.drop i).take len) v i len cap hm hvne hvq]
      rfl

/-- Witness for C7 at a concrete package.json content. -/
theorem c7_round_trip_extract_update_witness :
    ∃ u, updateVersionInContent (lc "\"version\": \"1.0.0\"") (lc "2.0.0")
        FileType.packageJson = some u
      ∧ extractVersion u FileType.packageJson = some (lc "2.0.0") :=
  c7_round_trip_extract_update (lc "\"version\": \"1.0.0\"") (lc "2.0.0")
    FileType.packageJson (by decide) (by decide) (by decide)

/-- C4 counterexample: with the new version equal to the current one the
legacy batch still rewrites and writes the file — the typescript replacement
normalises the whitespace around the operator, so the run is not a no-op. -/
theorem c4_counterexample :
    ((bumpVersionBatch (lc "1.2.3") false [lc "v.ts"]
        ⟨[(lc "v.ts", lc "export const version = \"1.2.3\";")], [], []⟩).1.files
      = [(lc "v.ts", lc "export const version= \"1.2.3\";")])
    ∧ lc "export const version= \"1.2.3\";"
        ≠ lc "export const version = \"1.2.3\";" := by
  decide

/-- C4 (amended): the content update is idempotent — a second application
with the same valid target version returns the result of the first
unchanged, for every file type — so the second of two identical bump runs
changes no file content, even though a run whose new version equals the
current one may itself rewrite files. -/
theorem c4_update_idempotent (c v : List Char) (ft : FileType)
    (hv : isValidSemver v = true) :
    (updateVersionInContent c v ft).bind (fun c1 => updateVersionInContent c1 v ft)
      = updateVersionInContent c v ft := by
  obtain ⟨hvne, hvdq, hvq, hveq, hvc⟩ := semver_v_facts v hv
  cases ft with
  | unknown => rfl
  | packageJson =>
    show some (replaceFirst matchPkjAt (fun _ _ => pkjRender v)
        (replaceFirst matchPkjAt (fun _ _ => pkjRender v) c))
      = some (replaceFirst matchPkjAt (fun _ _ => pkjRender v) c)
    exact congrArg some (updatePkj_idem c v hvne hvdq)
  | typescript =>
    show some (replaceFirst matchTsAt (fun matched _ => tsRender matched v)
        (replaceFirst matchTsAt (fun matched _ => tsRender matched v) c))
      = some (replaceFirst matchTsAt (fun matched _ => tsRender matched v) c)
    exact congrArg some (updateTs_idem c v hvne hvq hveq hvc)

/-- Witness for C4 at a concrete typescript content. -/
theorem c4_update_idempotent_witness :
    (updateVersionInContent (lc "export const version = \"1.0.0\";") (lc "2.0.0")
        FileType.typescript).bind
        (fun c1 => updateVersionInContent c1 (lc "2.0.0") FileType.typescript)
      = updateVersionInContent (lc "export const version = \"1.0.0\";") (lc "2.0.0")
          FileType.typescript :=
  c4_update_idempotent (lc "export const version = \"1.0.0\";") (lc "2.0.0")
    FileType.typescript (by decide)

/-- C3 counterexample: a typescript content with two recognised version
declarations keeps the old version in the second one after the update — the
legacy rule has no global flag and rewrites only the first match. -/
theorem c3_counterexample :
    updateVersionInContent
        (lc "export const version = \"1.0.0\";\nversion: \"1.0.0\",")
        (lc "2.0.0") FileType.typescript
      = some (lc "export const version= \"2.0.0\";\nversion: \"1.0.0\",")
    ∧ containsSub (lc "\"1.0.0\"")
        (lc "export const version= \"2.0.0\";\nversion: \"1.0.0\",") = true := by
  decide

/-- C3 (amended): the typescript update rewrites exactly the leftmost
matching declaration — the result splices the replacement at the first
match, no earlier offset matches, and content without any match is returned
unchanged; later matching declarations are left as they were. -/
theorem c3_leftmost_only (c v : List Char) :
    (∀ i len cap, firstMatchFrom matchTsAt c = some (i, len, cap) →
      updateVersionInContent c v FileType.typescript
        = some (c.take i ++ (tsRender ((c.drop i).take len) v ++ c.drop (i + len)))
      ∧ ∀ j < i, matchTsAt (c.drop j) = none)
    ∧ (firstMatchFrom matchTsAt c = none →
      updateVersionInContent c v FileType.typescript = some c) := by
  constructor
  · intro i len cap hm
    refine ⟨?_, firstMatchFrom_some_min matchTsAt c i len cap hm⟩
    show some (replaceFirst matchTsAt (fun matched _ => tsRender matched v) c) = _
    rw [updateTs_splice c v i len cap hm]
  · intro hm
    show some (replaceFirst matchTsAt (fun matched _ => tsRender matched v) c) = some c
    rw [replaceFirst, hm]

/-- Witness for C3 at a concrete content with two declarations. -/
theorem c3_leftmost_only_witness :
    updateVersionInContent (lc "version: \"1.0.0\" version: \"1.0.0\"") (lc "2.0.0")
        FileType.typescript
      = some ((lc "version: \"1.0.0\" version: \"1.0.0\"").take 0
          ++ (tsRender (((lc "version: \"1.0.0\" version: \"1.0.0\"").drop 0).take 16)
                (lc "2.0.0")
              ++ (lc "version: \"1.0.0\" version: \"1.0.0\"").drop (0 + 16))) :=
  ((c3_leftmost_only (lc "version: \"1.0.0\" version: \"1.0.0\"") (lc "2.0.0")).1
    0 16 (lc "1.0.0") (by decide)).1

/-! Batch lemmas for the legacy per-file loop: the store part of a step does
not depend on the accumulated results, the unreadable set is invariant, and
a step on an unreadable file appends exactly one failure entry. -/

theorem writeFs_unreadable (fs : SimFS) (p c : List Char) (fs2 : SimFS)
    (h : writeFs fs p c = some fs2) : fs2.unreadable = fs.unreadable := by
  rw [writeFs] at h
  cases hu : fs.unwritable.contains p with
  | true =>
    rw [hu] at h
    simp at h
  | false =>
    rw [hu] at h
    simp at h
    rw [← h]

theorem bumpFileStep_acc (v : List Char) (dr : Bool) (fs0 : SimFS)
    (rs : List UpdateResult) (f : List Char) :
    bumpFileStep v dr (fs0, rs) f
      = ((bumpFileStep v dr (fs0, []) f).1, rs ++ (bumpFileStep v dr (fs0, []) f).2) := by
  rw [bumpFileStep, bumpFileStep]
  dsimp only
  cases readFs fs0 f with
  | absent => simp
  | failed => simp
  | ok content =>
    dsimp only
    by_cases hft : detectFileType f content = FileType.unknown
    · simp [hft]
    · rw [if_neg hft, if_neg hft]
      cases extractVersion content (detectFileType f content) with
      | none => simp
      | some d =>
        dsimp only
        cases updateVersionInContent content v (detectFileType f content) with
        | none => simp
        | some updated =>
          dsimp only
          cases dr with
          | true => simp
          | false =>
            cases writeFs fs0 f updated with
            | none => simp
            | some fs2 => simp

theorem bumpFileStep_unreadable (v : List Char) (dr : Bool)
    (acc : SimFS × List UpdateResult) (f : List Char) :
    (bumpFileStep v dr acc f).1.unreadable = acc.1.unreadable := by
  rw [bumpFileStep]
  cases readFs acc.1 f with
  | absent => rfl
  | failed => rfl
  | ok content =>
    dsimp only
    by_cases hft : detectFileType f content = FileType.unknown
    · rw [if_pos hft]
    · rw [if_neg hft]
      cases extractVersion content (detectFileType f content) with
      | none => rfl
      | some d =>
        dsimp only
        cases updateVersionInContent content v (detectFileType f content) with
        | none => rfl
        | some updated =>
          dsimp only
          cases dr with
          | true => rfl
          | false =>
            cases hw : writeFs acc.1 f updated with
            | none => rfl
            | some fs2 => exact writeFs_unreadable acc.1 f updated fs2 hw

theorem batch_fold_acc (v : List Char) (dr : Bool) (files : List (List Char))
    (fs0 : SimFS) (rs : List UpdateResult) :
    files.foldl (bumpFileStep v dr) (fs0, rs)
      = ((files.foldl (bumpFileStep v dr) (fs0, [])).1,
         rs ++ (files.foldl (bumpFileStep v dr) (fs0, [])).2) := by
  induction files generalizing fs0 rs with
  | nil => simp
  | cons f t ih =>
    rw [List.foldl_cons, List.foldl_cons, bumpFileStep_acc v dr fs0 rs f]
    cases hstep : bumpFileStep v dr (fs0, []) f with
    | mk X δ =>
      rw [ih X (rs ++ δ), ih X δ]
      simp [List.append_assoc]

theorem batch_fold_unreadable (v : List Char) (dr : Bool) (files : List (List Char))
    (acc : SimFS × List UpdateResult) :
    (files.foldl (bumpFileStep v dr) acc).1.unreadable = acc.1.unreadable := by
  induction files generalizing acc with
  | nil => rfl
  | cons f t ih =>
    rw [List.foldl_cons, ih (bumpFileStep v dr acc f)]
    exact bumpFileStep_unreadable v dr acc f

theorem bumpFileStep_unreadable_file (v : List Char) (dr : Bool)
    (acc : SimFS × List UpdateResult) (f : List Char)
    (h : acc.1.unreadable.contains f = true) :
    bumpFileStep v dr acc f
      = (acc.1, acc.2 ++ [⟨f, false, some (lc "read failed")⟩]) := by
  have hr : readFs acc.1 f = .failed := by
    rw [readFs, if_pos h]
  rw [bumpFileStep, hr]

theorem isEmptyU_iff (l : List UpdateResult) : l.isEmpty = true ↔ l = [] := by
  cases l <;> simp

theorem bumpVersionBatch_parts (v : List Char) (dr : Bool) (files : List (List Char))
    (fs : SimFS) :
    (bumpVersionBatch v dr files fs).1 = (files.foldl (bumpFileStep v dr) (fs, [])).1
    ∧ (bumpVersionBatch v dr files fs).2.1
        = (files.foldl (bumpFileStep v dr) (fs, [])).2
    ∧ (bumpVersionBatch v dr files fs).2.2
        = (if ((files.foldl (bumpFileStep v dr) (fs, [])).2.filter
              (fun r => !r.success)).isEmpty then Except.ok ()
           else .error (aggregateMsg ((files.foldl (bumpFileStep v dr) (fs, [])).2.filter
              (fun r => !r.success)))) := by
  cases h : ((files.foldl (bumpFileStep v dr) (fs, [])).2.filter
      (fun r => !r.success)).isEmpty <;> simp [bumpVersionBatch, h]

/-- C2 (amended): in the legacy batch a per-file failure is isolated — with
an unreadable file anywhere in the list, the final store is the one of the
run without that file, so every other change is still applied; the failed
file contributes exactly its failure entry; the run ends with the single
aggregate error enumerating the collected failures; and in general the
batch succeeds if and only if no per-file result failed.  (The impl batch
instead swallows every per-file error and never raises an aggregate one.) -/
theorem c2_failure_isolated_aggregate (v : List Char) (dr : Bool) (fs : SimFS)
    (fs1 fs2 : List (List Char)) (bad : List Char)
    (hbad : fs.unreadable.contains bad = true) :
    ((bumpVersionBatch v dr (fs1 ++ bad :: fs2) fs).1
       = (bumpVersionBatch v dr (fs1 ++ fs2) fs).1)
    ∧ (⟨bad, false, some (lc "read failed")⟩
         ∈ (bumpVersionBatch v dr (fs1 ++ bad :: fs2) fs).2.1)
    ∧ ((bumpVersionBatch v dr (fs1 ++ bad :: fs2) fs).2.2
         = Except.error (aggregateMsg
             ((bumpVersionBatch v dr (fs1 ++ bad :: fs2) fs).2.1.filter
               (fun r => !r.success))))
    ∧ (∀ gl : List (List Char),
        (bumpVersionBatch v dr gl fs).2.2 = Except.ok ()
          ↔ (bumpVersionBatch v dr gl fs).2.1.filter (fun r => !r.success) = []) := by
  obtain ⟨hp1, hp2, hp3⟩ := bumpVersionBatch_parts v dr (fs1 ++ bad :: fs2) fs
  obtain ⟨hq1, hq2, hq3⟩ := bumpVersionBatch_parts v dr (fs1 ++ fs2) fs
  have hu1 : (fs1.foldl (bumpFileStep v dr) (fs, [])).1.unreadable = fs.unreadable :=
    batch_fold_unreadable v dr fs1 (fs, [])
  have hbad1 : (fs1.foldl (bumpFileStep v dr) (fs, [])).1.unreadable.contains bad
      = true := by
    rw [hu1]
    exact hbad
  have hstep : bumpFileStep v dr (fs1.foldl (bumpFileStep v dr) (fs, [])) bad
      = ((fs1.foldl (bumpFileStep v dr) (fs, [])).1,
         (fs1.foldl (bumpFileStep v dr) (fs, [])).2
           ++ [⟨bad, false, some (lc "read failed")⟩]) :=
    bumpFileStep_unreadable_file v dr _ bad hbad1
  have hfoldbad : (fs1 ++ bad :: fs2).foldl (bumpFileStep v dr) (fs, [])
      = ((fs2.foldl (bumpFileStep v dr)
            ((fs1.foldl (bumpFileStep v dr) (fs, [])).1, [])).1,
         ((fs1.foldl (bumpFileStep v dr) (fs, [])).2
             ++ [⟨bad, false, some (lc "read failed")⟩])
           ++ (fs2.foldl (bumpFileStep v dr)
               ((fs1.foldl (bumpFileStep v dr) (fs, [])).1, [])).2) := by
    rw [List.foldl_append, List.foldl_cons, hstep]
    exact batch_fold_acc v dr fs2 _ _
  have hfold2 : (fs1 ++ fs2).foldl (bumpFileStep v dr) (fs, [])
      = ((fs2.foldl (bumpFileStep v dr)
            ((fs1.foldl (bumpFileStep v dr) (fs, [])).1, [])).1,
         (fs1.foldl (bumpFileStep v dr) (fs, [])).2
           ++ (fs2.foldl (bumpFileStep v dr)
               ((fs1.foldl (bumpFileStep v dr) (fs, [])).1, [])).2) := by
    rw [List.foldl_append]
    exact batch_fold_acc v dr fs2 _ _
  have hmem : (⟨bad, false, some (lc "read failed")⟩ : UpdateResult)
      ∈ ((fs1 ++ bad :: fs2).foldl (bumpFileStep v dr) (fs, [])).2 := by
    rw [hfoldbad]
    simp
  have hthrow : ∀ gl : List (List Char),
      (bumpVersionBatch v dr gl fs).2.2 = Except.ok ()
        ↔ (bumpVersionBatch v dr gl fs).2.1.filter (fun r => !r.success) = [] := by
    intro gl
    obtain ⟨hg1, hg2, hg3⟩ := bumpVersionBatch_parts v dr gl fs
    rw [hg2, hg3]
    cases hE : ((gl.foldl (bumpFileStep v dr) (fs, [])).2.filter
        (fun r => !r.success)).isEmpty with
    | true => simp [(isEmptyU_iff _).mp hE]
    | false =>
      rw [if_neg (by decide)]
      constructor
      · intro h0
        simp at h0
      · intro h0
        rw [h0] at hE
        simp at hE
  refine ⟨?_, ?_, ?_, hthrow⟩
  · rw [hp1, hq1, hfoldbad, hfold2]
  · rw [hp2]
    exact hmem
  · rw [hp3, hp2]
    have hne : (((fs1 ++ bad :: fs2).foldl (bumpFileStep v dr) (fs, [])).2.filter
        (fun r => !r.success)) ≠ [] := by
      intro h0
      have hin : (⟨bad, false, some (lc "read failed")⟩ : UpdateResult)
          ∈ ((fs1 ++ bad :: fs2).foldl (bumpFileStep v dr) (fs, [])).2.filter
            (fun r => !r.success) := List.mem_filter.mpr ⟨hmem, rfl⟩
      rw [h0] at hin
      simp at hin
    have hE : (((fs1 ++ bad :: fs2).foldl (bumpFileStep v dr) (fs, [])).2.filter
        (fun r => !r.success)).isEmpty = false := by
      cases hE2 : (((fs1 ++ bad :: fs2).foldl (bumpFileStep v dr) (fs, [])).2.filter
          (fun r => !r.success)).isEmpty with
      | false => rfl
      | true => exact absurd ((isEmptyU_iff _).mp hE2) hne
    rw [hE]
    simp

/-- Witness for C2: one unreadable file between two good ones; the good
files are updated, the bad one yields a failure entry and the aggregate
error is raised. -/
theorem c2_failure_isolated_aggregate_witness :
    ((bumpVersionBatch (lc "2.0.0") false ([lc "a.json"] ++ lc "bad.json" :: [lc "b.json"])
        ⟨[(lc "a.json", lc "\"version\": \"1.0.0\""),
          (lc "b.json", lc "\"version\": \"1.0.0\"")], [lc "bad.json"], []⟩).1
       = (bumpVersionBatch (lc "2.0.0") false ([lc "a.json"] ++ [lc "b.json"])
          ⟨[(lc "a.json", lc "\"version\": \"1.0.0\""),
            (lc "b.json", lc "\"version\": \"1.0.0\"")], [lc "bad.json"], []⟩).1)
    ∧ (⟨lc "bad.json", false, some (lc "read failed")⟩
         ∈ (bumpVersionBatch (lc "2.0.0") false
            ([lc "a.json"] ++ lc "bad.json" :: [lc "b.json"])
            ⟨[(lc "a.json", lc "\"version\": \"1.0.0\""),
              (lc "b.json", lc "\"version\": \"1.0.0\"")], [lc "bad.json"], []⟩).2.1)
    ∧ ((bumpVersionBatch (lc "2.0.0") false ([lc "a.json"] ++ lc "bad.json" :: [lc "b.json"])
          ⟨[(lc "a.json", lc "\"version\": \"1.0.0\""),
            (lc "b.json", lc "\"version\": \"1.0.0\"")], [lc "bad.json"], []⟩).2.2
         = Except.error (aggregateMsg
             ((bumpVersionBatch (lc "2.0.0") false
                ([lc "a.json"] ++ lc "bad.json" :: [lc "b.json"])
                ⟨[(lc "a.json", lc "\"version\": \"1.0.0\""),
                  (lc "b.json", lc "\"version\": \"1.0.0\"")], [lc "bad.json"], []⟩).2.1.filter
               (fun r => !r.success))))
    ∧ (∀ gl : List (List Char),
        (bumpVersionBatch (lc "2.0.0") false gl
            ⟨[(lc "a.json", lc "\"version\": \"1.0.0\""),
              (lc "b.json", lc "\"version\": \"1.0.0\"")], [lc "bad.json"], []⟩).2.2
            = Except.ok ()
          ↔ (bumpVersionBatch (lc "2.0.0") false gl
              ⟨[(lc "a.json", lc "\"version\": \"1.0.0\""),
                (lc "b.json", lc "\"version\": \"1.0.0\"")], [lc "bad.json"], []⟩).2.1.filter
              (fun r => !r.success) = []) :=
  c2_failure_isolated_aggregate (lc "2.0.0") false
    ⟨[(lc "a.json", lc "\"version\": \"1.0.0\""),
      (lc "b.json", lc "\"version\": \"1.0.0\"")], [lc "bad.json"], []⟩
    [lc "a.json"] [lc "b.json"] (lc "bad.json") (by decide)

/-- C2 counterexample: the impl batch returns success although the read of
one file failed, while still updating the other file — per-file errors are
swallowed by the per-task catch and no aggregate error is ever raised. -/
theorem c2_counterexample :
    bumpVersionsImplBatch (lc "1.0.0") (lc "1.0.1") false
        [lc "bad.json", lc "a.json"]
        ⟨[(lc "a.json", lc "\"version\": \"1.0.0\"")], [lc "bad.json"], []⟩
      = Except.ok ⟨[(lc "a.json", lc "\"version\": \"1.0.1\"")], [lc "bad.json"], []⟩ :=
  congrArg Except.ok (by decide)

/-- C1: refuted on the impl path — the write sits inside the impl
updateVersionInContent, which never consults the dry-run flag, so a batch
run with dryRun set still changes the on-disk content of a matching file. -/
theorem c1_dry_run_still_writes :
    readFs (bumpVersionsFileStep (lc "1.0.0") (lc "1.0.1") true
        ⟨[(lc "a.json", lc "\"version\": \"1.0.0\"")], [], []⟩ (lc "a.json"))
        (lc "a.json")
      = ReadRes.ok (lc "\"version\": \"1.0.1\"")
    ∧ readFs ⟨[(lc "a.json", lc "\"version\": \"1.0.0\"")], [], []⟩ (lc "a.json")
      = ReadRes.ok (lc "\"version\": \"1.0.0\"") := by
  decide

/-- C8 counterexample: a recognised typescript file whose detected version
differs from the reference but is not parsable is reported as a read error
with supported=false — semver.eq throws inside the try block — instead of
as a supported file with a version mismatch. -/
theorem c8_counterexample :
    (analyzeFiles ⟨[(lc "v.ts", lc "export const version = \"banana\";")], [], []⟩
        [lc "v.ts"] (lc "1.0.0")
      = [⟨lc "v.ts", false, none, false, lc "read error: Invalid Version",
          FileType.unknown⟩])
    ∧ extractVersion (lc "export const version = \"banana\";") FileType.typescript
        = some (lc "banana")
    ∧ lc "banana" ≠ lc "1.0.0" := by
  decide

/-- C8 (amended): the analyzer returns one record per input file in order
and never aborts; a failed or absent read gives supported=false with a
read-error reason; an unrecognised type gives "unsupported file type"; a
recognised file without a version gives "no version field found"; a
recognised file whose parsable detected version equals or differs from a
parsable reference stays supported, the mismatch only setting
versionMismatch; but an unparsable detected version is misreported as a
read error because the comparison throws inside the try block. -/
theorem c8_analysis_classification (fs : SimFS) (files : List (List Char))
    (ref : List Char) :
    ((analyzeFiles fs files ref).length = files.length)
    ∧ (analyzeFiles fs [] ref = [])
    ∧ (∀ f t, analyzeFiles fs (f :: t) ref
        = analyzeOne fs ref f :: analyzeFiles fs t ref)
    ∧ (∀ f, readFs fs f = .failed →
        analyzeOne fs ref f
          = ⟨f, false, none, false, lc "read error: EACCES", .unknown⟩)
    ∧ (∀ f, readFs fs f = .absent →
        analyzeOne fs ref f
          = ⟨f, false, none, false, lc "read error: ENOENT", .unknown⟩)
    ∧ (∀ f content, readFs fs f = .ok content →
        detectFileType f content = .unknown →
        analyzeOne fs ref f
          = ⟨f, false, none, false, lc "unsupported file type", .unknown⟩)
    ∧ (∀ f content, readFs fs f = .ok content →
        detectFileType f content ≠ .unknown →
        extractVersion content (detectFileType f content) = none →
        analyzeOne fs ref f
          = ⟨f, false, none, false, lc "no version field found",
             detectFileType f content⟩)
    ∧ (∀ f content d x y, readFs fs f = .ok content →
        detectFileType f content ≠ .unknown →
        extractVersion content (detectFileType f content) = some d →
        parse3 d = some x → parse3 ref = some y →
        (x = y → analyzeOne fs ref f
            = ⟨f, true, some d, false, lc "ok", detectFileType f content⟩)
        ∧ (x ≠ y → analyzeOne fs ref f
            = ⟨f, true, some d, true, lc "version mismatch: found " ++ d
                ++ lc ", expected " ++ ref, detectFileType f content⟩))
    ∧ (∀ f content d, readFs fs f = .ok content →
        detectFileType f content ≠ .unknown →
        extractVersion content (detectFileType f content) = some d →
        parse3 d = none →
        analyzeOne fs ref f
          = ⟨f, false, none, false, lc "read error: Invalid Version", .unknown⟩) := by
  refine ⟨by rw [analyzeFiles, List.length_map], rfl, fun f t => rfl,
    ?_, ?_, ?_, ?_, ?_, ?_⟩
  · intro f hr
    rw [analyzeOne, hr]
  · intro f hr
    rw [analyzeOne, hr]
  · intro f content hr hft
    rw [analyzeOne, hr]
    dsimp only
    rw [hft]
    simp [extractVersion]
  · intro f content hr hft hev
    rw [analyzeOne, hr]
    dsimp only
    rw [if_neg hft, hev]
  · intro f content d x y hr hft hev hx hy
    constructor
    · intro hxy
      rw [analyzeOne, hr]
      dsimp only
      rw [if_neg hft, hev]
      dsimp only
      rw [semverEq, hx, hy]
      dsimp only
      have hd : decide (x = y) = true := by simp [hxy]
      rw [hd]
    · intro hxy
      rw [analyzeOne, hr]
      dsimp only
      rw [if_neg hft, hev]
      dsimp only
      rw [semverEq, hx, hy]
      dsimp only
      have hd : decide (x = y) = false := by simp [hxy]
      rw [hd]
  · intro f content d hr hft hev hx
    rw [analyzeOne, hr]
    dsimp only
    rw [if_neg hft, hev]
    dsimp only
    rw [semverEq, hx]
    rfl

/-- Witness for C8: an unreadable file at a concrete store. -/
theorem c8_analysis_classification_witness :
    analyzeOne ⟨[], [lc "locked.json"], []⟩ (lc "1.0.0") (lc "locked.json")
      = ⟨lc "locked.json", false, none, false, lc "read error: EACCES",
         FileType.unknown⟩ :=
  (c8_analysis_classification ⟨[], [lc "locked.json"], []⟩ [] (lc "1.0.0")).2.2.2.1
    (lc "locked.json") (by decide)

/-- Witness for C6 on a concrete list with invalid and valid entries. -/
theorem c6_get_latest_version_spec_witness :
    getLatestVersion [lc "abc", lc "1.2.3", lc "0.9.0"] = some (lc "1.2.3")
    ∧ ((getLatestVersion [lc "abc", lc "1.2.3", lc "0.9.0"] = none
        ↔ ∀ v ∈ [lc "abc", lc "1.2.3", lc "0.9.0"], isValidSemver v = false)
      ∧ (∀ m, getLatestVersion [lc "abc", lc "1.2.3", lc "0.9.0"] = some m →
          m ∈ [lc "abc", lc "1.2.3", lc "0.9.0"] ∧ isValidSemver m = true
          ∧ ∀ u ∈ [lc "abc", lc "1.2.3", lc "0.9.0"], isValidSemver u = true →
              ∃ k, compareVersions u m = .ok k ∧ k ≤ 0)) :=
  ⟨by decide, c6_get_latest_version_spec [lc "abc", lc "1.2.3", lc "0.9.0"]⟩

end Bleump
